import Mathlib

/-!
Verification of `src/_utility/simulations_utility.py` (quantum-gates
repository).  This file gives a shallow embedding of the module's functions
and proves properties of them.

Conventions of the embedding:
* Python bit strings (the keys of qiskit count dictionaries, made of the
  characters '0' and '1') are `List Bool`, with `false` for '0' and `true`
  for '1'; Python's lexicographic string order on them is `bitsLt`.
* A Python `dict` whose keys are bit strings is an association list
  `List (List Bool × Nat)`; a Python dict cannot hold a key twice, which is
  the `Nodup` hypothesis on the key list in the theorems.
* Machine integers are `Nat`; the float arithmetic of `0.8 * cpu_count` is
  exact arithmetic over `ℚ`; numpy arrays are `Nat → ℝ` or `Nat → ℚ`.
* Fallible Python code (indexing that can raise `IndexError`, `assert`
  statements) returns `Option` / `Except`.
* Mutable state (the file system of `post_process_split`, the object heap
  for the frame properties) is passed explicitly.

All definitions are given first, followed by the theorems.
-/

/-- Python `int(s, 2)`: the numeric value of a bit string, most significant
bit first. -/
def bitsToNat : List Bool → Nat
  | [] => 0
  | b :: t => (if b then 2 ^ t.length else 0) + bitsToNat t

/-- The binary digits of a positive number, most significant bit first
(`natBits 0 = []`). -/
def natBits : Nat → List Bool
  | 0 => []
  | v + 1 => natBits ((v + 1) / 2) ++ [(v + 1) % 2 == 1]
decreasing_by exact Nat.div_lt_self (Nat.succ_pos v) (by omega)

/-- Python `format(v, 'b')`: the minimal binary representation (`"0"` for 0). -/
def pyFormatB (v : Nat) : List Bool :=
  if v = 0 then [false] else natBits v

/-- Python `s.zfill(n)`: left-pad with '0' to length `n` (no-op when already
that long). -/
def zfill (n : Nat) (s : List Bool) : List Bool :=
  List.replicate (n - s.length) false ++ s

/-- The value of `format(v, 'b').zfill(n)`, the canonical length-`n` bit
string of `v` (for `v < 2 ^ n`, `n ≥ 1`). -/
def natToBits (n v : Nat) : List Bool :=
  zfill n (pyFormatB v)

/-- Python string `<` on bit strings (lexicographic, '0' < '1'). -/
def bitsLt : List Bool → List Bool → Bool
  | [], [] => false
  | [], _ :: _ => true
  | _ :: _, [] => false
  | a :: as, b :: bs => (!a && b) || (a == b && bitsLt as bs)

/-- Python tuple `<=` on `(bit string, count)` pairs, as used by `sorted` on
`dict.items()`. -/
def pairLe (p q : List Bool × Nat) : Bool :=
  bitsLt p.1 q.1 || (p.1 == q.1 && p.2 ≤ q.2)

/-- Python `list.insert(i, x)` (clamps an out-of-range `i`). -/
def pyInsert (i : Nat) (x : α) (l : List α) : List α :=
  l.take i ++ x :: l.drop i

/-- Association-list lookup with the defaulting used by `fix_counts`:
`counts_0[k]` when `k` is a key, else the 0 count it inserts. -/
def findCount (l : List (List Bool × Nat)) (k : List Bool) : Nat :=
  match l with
  | [] => 0
  | p :: rest => if p.1 = k then p.2 else findCount rest k

/-- Insertion into a `pairLe`-sorted list (one step of the sort modelling
Python's `sorted`). -/
def insertSorted (p : List Bool × Nat) : List (List Bool × Nat) → List (List Bool × Nat)
  | [] => [p]
  | q :: rest => if pairLe p q then p :: q :: rest else q :: insertSorted p rest

/-- The `sorted(dict_items)` call of `fix_counts`: sorting the pairs by
Python tuple order.  (On the distinct keys of a dict any comparison sort
produces the same list, so insertion sort is a faithful model of Python's
sort.) -/
def sortCounts : List (List Bool × Nat) → List (List Bool × Nat)
  | [] => []
  | p :: rest => insertSorted p (sortCounts rest)

/-- The body of `for j in range(2**n_qubits-1): ...` in `fix_counts`
(lines 34–41): at iteration `j` it compares `counts[j+1]` with `counts[j]`
and inserts the missing element at position `j+1`.  `fuel` is the number of
remaining iterations; indexing out of range raises (`none`). -/
def fillLoop (n_qubits : Nat) : Nat → Nat → List (List Bool × Nat) →
    Option (List (List Bool × Nat))
  | _, 0, counts => some counts
  | j, fuel + 1, counts =>
    match counts[j + 1]?, counts[j]? with
    | some cj1, some cj =>
      fillLoop n_qubits (j + 1) fuel
        (if bitsToNat cj1.1 ≠ bitsToNat cj.1 + 1
         then pyInsert (j + 1) (natToBits n_qubits (bitsToNat cj.1 + 1), 0) counts
         else counts)
    | _, _ => none

/-- The part of `fix_counts` after `counts = sorted(dict_items)`
(lines 24–43): reading `counts[0]` (possible `IndexError` on an empty
dict), prepending the zero string and appending the all-ones string when
missing, and the gap-filling loop. -/
def fixAfterSort (n_qubits : Nat) (counts : List (List Bool × Nat)) :
    Option (List (List Bool × Nat)) :=
  match counts.head? with
  | none => none
  | some c0 =>
    let counts1 :=
      if bitsToNat c0.1 ≠ 0 then pyInsert 0 (natToBits n_qubits 0, 0) counts
      else counts
    match counts1.getLast? with
    | none => none
    | some clast =>
      let counts2 :=
        if bitsToNat clast.1 ≠ 2 ^ n_qubits - 1 then
          pyInsert counts1.length (natToBits n_qubits (2 ^ n_qubits - 1), 0) counts1
        else counts1
      fillLoop n_qubits 0 (2 ^ n_qubits - 1) counts2

/-- The function `fix_counts(counts_0, n_qubits)` (lines 13–43): mirror the
bit strings, sort, prepend the zero string and append the all-ones string
when missing, then fill in all remaining gaps with zero counts.  The dict is
an association list with distinct keys; `IndexError` is `none`. -/
def fix_counts (counts_0 : List (List Bool × Nat)) (n_qubits : Nat) :
    Option (List (List Bool × Nat)) :=
  let mirrored_counts := counts_0.map (fun p => (p.1.reverse, p.2))
  fixAfterSort n_qubits (sortCounts mirrored_counts)

/-- The function `compute_Hellinger_distance(p_ng, p_real, nqubits)`
(lines 103–113): `dh_ng = (np.sqrt(p_real) - np.sqrt(p_ng))**2`, then
`h_ng` accumulates `dh_ng[i]` for `i in range(2**nqubits)`, and the result
is `(1/np.sqrt(2)) * np.sqrt(h_ng)`.  The numpy arrays are real-valued
sequences (exact reals in place of floats). -/
noncomputable def compute_Hellinger_distance (p_ng p_real : Nat → ℝ)
    (nqubits : Nat) : ℝ :=
  let dh_ng : Nat → ℝ := fun i => (Real.sqrt (p_real i) - Real.sqrt (p_ng i)) ^ 2
  let h_ng : ℝ := (List.range (2 ^ nqubits)).foldl (fun acc i => acc + dh_ng i) 0
  (1 / Real.sqrt 2) * Real.sqrt h_ng

/-- Line 57: `n_processes = max(int(0.8 * cpu_count), 2)`.  Python's
`int(0.8 * cpu_count)` is evaluated in exact arithmetic as
`floor(4*cpu_count/5)`, i.e. Nat division; `int` truncates, which on
non-negative values is the floor. -/
def n_processes (cpu_count : Nat) : Nat :=
  max (4 * cpu_count / 5) 2

/-- Line 61: `chunksize = max(1, int(simulations / n_processes) +
(1 if simulations % n_processes > 0 else 0))`. -/
def chunksize (simulations n_proc : Nat) : Nat :=
  max 1 (simulations / n_proc + (if simulations % n_proc > 0 then 1 else 0))

/-- The function `create_qc_list` (lines 116–151), with the qiskit
operations uninterpreted: `aer` is the `AerSimulator()` instance created
before the loop, `fromLine n` is `CouplingMap.from_line(n,
bidirectional=True)`, `transpileSim qc sim cmap` is the first
`transpile(circuits=qc, backend=sim, coupling_map=cmap, seed_transpiler=42)`
call and `transpileBackend qc backend layout` is the second
`transpile(circuits=qc, backend=backend, scheduling_method='asap',
initial_layout=layout, seed_transpiler=42)` call.  `qubits_layout[0:nqubit]`
is `List.take nqubit`.  The result list is grown by `append` in loop order,
as in the source. -/
def create_qc_list {Circuit Simulator CMap Backend : Type}
    (transpileSim : Circuit → Simulator → CMap → Circuit)
    (transpileBackend : Circuit → Backend → List Nat → Circuit)
    (aer : Simulator) (fromLine : Nat → CMap)
    (circuit_generator : Nat → Circuit) (nqubits_list : List Nat)
    (qubits_layout : List Nat) (backend : Backend) : List Circuit :=
  nqubits_list.foldl
    (fun result_list nqubit =>
      result_list ++
        [transpileBackend
          (transpileSim (circuit_generator nqubit) aer (fromLine nqubit))
          backend (qubits_layout.take nqubit)])
    []

/-- The file-system state for `post_process_split`: filenames map to array
contents (`none` when the file does not exist).  Arrays are rational-valued
sequences, exact arithmetic in place of floats. -/
def FS : Type := String → Option (Nat → ℚ)

/-- Python `os.path.isfile f`. -/
def isfile (fs : FS) (f : String) : Bool := (fs f).isSome

/-- Python `np.loadtxt(f)`.  Total here (default all-zero array): on every
path on which the loop reads, the file exists (the second assertion checks
all sources exist and writes never remove files), so the default is never
observable. -/
def np_loadtxt (fs : FS) (f : String) : Nat → ℚ :=
  (fs f).getD (fun _ => 0)

/-- Python `np.savetxt(f, arr)`. -/
def np_savetxt (fs : FS) (f : String) (arr : Nat → ℚ) : FS :=
  fun x => if x = f then some arr else fs x

/-- The body of one iteration of the write loop (lines 213–216):
`target_array = np.loadtxt(source_filenames[i])`, then
`target_array += np.loadtxt(source_file)` for each `source_file` in
`source_filenames[i+1:i+split]` (`drop (i+1)` then `take (split-1)`, with
Python's slice clamping), then `mean_array = target_array / split`.
`srcs.getD i ""` stands for `source_filenames[i]`, in range whenever the
first assertion passed and `split ≥ 1`. -/
def stepMean (fs : FS) (srcs : List String) (split i : Nat) : Nat → ℚ :=
  let target_array : Nat → ℚ :=
    ((srcs.drop (i + 1)).take (split - 1)).foldl
      (fun arr source_file => fun k => arr k + np_loadtxt fs source_file k)
      (np_loadtxt fs (srcs.getD i ""))
  fun k => target_array k / (split : ℚ)

/-- The write loop of `post_process_split` (lines 211–219): for each
target, compute the group mean (`stepMean`), save it, and advance `i` by
`split`.  The file system is threaded through `np_savetxt`, so a load in a
later iteration sees an earlier write — exactly as on a real file system.
Returns the final file system together with the list of `(target, array)`
writes in order. -/
def processTargets (srcs : List String) (split : Nat) :
    FS → List String → Nat → FS × List (String × (Nat → ℚ))
  | fs, [], _ => (fs, [])
  | fs, target_file :: rest, i =>
    let mean_array : Nat → ℚ := stepMean fs srcs split i
    let next := processTargets srcs split
      (np_savetxt fs target_file mean_array) rest (i + split)
    (next.1, (target_file, mean_array) :: next.2)

/-- The function `post_process_split(source_filenames, target_filenames,
split)` (lines 192–219): the four `assert` statements in source order
become the error branches of an `Except` (they all run before any write,
so the error results carry no modified file system), then the write loop. -/
def post_process_split (fs : FS) (source_filenames target_filenames : List String)
    (split : Nat) : Except String (FS × List (String × (Nat → ℚ))) :=
  if ¬ (split * target_filenames.length = source_filenames.length) then
    Except.error "Number of provided files and split does not go together."
  else if ¬ (source_filenames.all (fun f => isfile fs f)) then
    Except.error "Found invalid filename."
  else if target_filenames.all (fun f => isfile fs f) then
    Except.error "At least one target files already exists."
  else if ¬ (1 < split) then
    Except.error "Using this split does not make sense."
  else
    Except.ok (processTargets source_filenames split fs target_filenames 0)

/-- Modelled from the spec words of C2: the array the claim says is written
for the group of `split` sources starting at index `start` — the
element-wise sum of the arrays loaded from the pre-call file system,
divided by `split`.  Compared against the code's `processTargets`. -/
def groupMean (fs : FS) (srcs : List String) (split start : Nat) : Nat → ℚ :=
  fun k => (((srcs.drop start).take split).foldl
    (fun acc sf => acc + np_loadtxt fs sf k) 0) / (split : ℚ)

/-- A file system on which the unamended C2 fails: sources `s1, s2, s4`
hold all-zero arrays, `a` holds the constant array 2, and `b` is missing.
With `split = 2`, sources `[s1, s2, a, s4]` and targets `[a, b]`, all four
assertions pass, but target `a` is overwritten before source `a` is read
for target `b`. -/
def exFS : FS := fun f =>
  if f = "s1" ∨ f = "s2" ∨ f = "s4" then some (fun _ => 0)
  else if f = "a" then some (fun _ => 2)
  else none

/-- A file system for the C2 witness: sources `x, y` hold the constant
array 1, the target `t` is missing. -/
def fsW : FS := fun f => if f = "x" ∨ f = "y" then some (fun _ => 1) else none

/-- A file system for the C9 witness: sources `x, y, z, w` and the target
`e` exist; the target `m` does not. -/
def fs9 : FS := fun f =>
  if f = "x" ∨ f = "y" ∨ f = "z" ∨ f = "w" ∨ f = "e" then some (fun _ => 1)
  else none

/-- A store of Python list/dict objects holding count pairs, for the frame
claim C7: object addresses map to contents. -/
def Store : Type := Nat → List (List Bool × Nat)

/-- Write the object at address `a`. -/
def updateStore (st : Store) (a : Nat) (v : List (List Bool × Nat)) : Store :=
  fun x => if x = a then v else st x

/-- Line 18: `mirrored_counts = {j[::-1]: counts_0[j] for j in counts_0}`,
reading the dict at `a0` and allocating the result at `a1`. -/
def mirrorStep (st : Store) (a0 a1 : Nat) : Store :=
  updateStore st a1 ((st a0).map (fun p => (p.1.reverse, p.2)))

/-- Line 22: `counts = sorted(dict_items)`, reading the dict at `a1` and
allocating the new list at `a2`. -/
def sortStep (st : Store) (a1 a2 : Nat) : Store :=
  updateStore st a2 (sortCounts (st a1))

/-- Store-passing `fix_counts`: the argument dict lives at `a0`; `a1`, `a2`
are the fresh addresses of the mirrored dict and the sorted list.  Every
`insert` of the source mutates only the object at `a2`; their combined
effect is the single update of `a2` with the finished histogram
(`fixAfterSort`).  Returns the address of the result list and the final
store (`none` on the `IndexError` path). -/
def fix_countsST (n_qubits : Nat) (a0 a1 a2 : Nat) (st : Store) :
    Option (Nat × Store) :=
  match fixAfterSort n_qubits (sortStep (mirrorStep st a0 a1) a1 a2 a2) with
  | none => none
  | some final =>
    some (a2, updateStore (sortStep (mirrorStep st a0 a1) a1 a2) a2 final)

/-- A store of arrays, as read by `compute_Hellinger_distance`. -/
def ArrStore : Type := Nat → (Nat → ℝ)

/-- Write the array at address `b`. -/
def updateArr (st : ArrStore) (b : Nat) (v : Nat → ℝ) : ArrStore :=
  fun x => if x = b then v else st x

/-- Line 106: `dh_ng = (np.sqrt(p_real) - np.sqrt(p_ng))**2`, reading the
arrays at `b0` (`p_ng`) and `b1` (`p_real`) and allocating the fresh result
array at `b2`. -/
noncomputable def dhStep (st : ArrStore) (b0 b1 b2 : Nat) : ArrStore :=
  updateArr st b2 (fun i => (Real.sqrt (st b1 i) - Real.sqrt (st b0 i)) ^ 2)

/-- Store-passing `compute_Hellinger_distance`: `h_ng` is a local scalar,
and the only allocation is the `dh_ng` array at `b2`. -/
noncomputable def compute_Hellinger_distanceST (nqubits : Nat)
    (b0 b1 b2 : Nat) (st : ArrStore) : ℝ × ArrStore :=
  ((1 / Real.sqrt 2) * Real.sqrt
      ((List.range (2 ^ nqubits)).foldl
        (fun acc i => acc + dhStep st b0 b1 b2 b2 i) 0),
    dhStep st b0 b1 b2)

/-- One observable event of
`perform_parallel_simulation_with_multiprocessing`. -/
inductive PoolEvent (α β : Type) where
  | cpuCountPrint (c : Nat)
  | mkPool (n_proc : Nat)
  | call (arg : α)
  | printResult (r : β)
  | close
  | join

/-- The trace of `perform_parallel_simulation_with_multiprocessing`
(lines 46–71) and its return value: print the CPU count, create one pool
with `n_processes` workers, apply `simulation` once per yielded element of
`imap_unordered` (in the scheduler-chosen order `π`, a permutation of
`args`), print each result, close and join the pool, return `None`
(`Unit`). -/
def perform_parallel_simulation_with_multiprocessing {α β : Type}
    (args : List α) (simulation : α → β) (cpu_count : Nat) (π : List α) :
    List (PoolEvent α β) × Unit :=
  ([PoolEvent.cpuCountPrint cpu_count,
    PoolEvent.mkPool (n_processes cpu_count)] ++
   (π.map (fun a => [PoolEvent.call a,
      PoolEvent.printResult (simulation a)])).flatten ++
   [PoolEvent.close, PoolEvent.join], ())

/-- Projection of a trace event to the argument of a `simulation` call. -/
def callArg {α β : Type} : PoolEvent α β → Option α
  | PoolEvent.call a => some a
  | _ => none

/-- Projection of a trace event to a printed result. -/
def printedResult {α β : Type} : PoolEvent α β → Option β
  | PoolEvent.printResult r => some r
  | _ => none

/-- Test for a pool-creation event. -/
def isMkPool {α β : Type} : PoolEvent α β → Bool
  | PoolEvent.mkPool _ => true
  | _ => false

theorem bitsToNat_cons (b : Bool) (t : List Bool) :
    bitsToNat (b :: t) = (if b then 2 ^ t.length else 0) + bitsToNat t := rfl

theorem bitsToNat_append_singleton (t : List Bool) (b : Bool) :
    bitsToNat (t ++ [b]) = 2 * bitsToNat t + (if b then 1 else 0) := by
  induction t with
  | nil => cases b <;> simp [bitsToNat]
  | cons c u ih =>
    rw [List.cons_append, bitsToNat_cons, bitsToNat_cons, ih]
    have h : ((u ++ [b]).length) = u.length + 1 := by simp
    rw [h, pow_succ]
    cases c <;> simp <;> ring

theorem bitsToNat_lt (s : List Bool) : bitsToNat s < 2 ^ s.length := by
  induction s with
  | nil => simp [bitsToNat]
  | cons b t ih =>
    rw [bitsToNat_cons]
    cases b <;> simp [pow_succ] <;> omega

theorem bitsToNat_replicate_false_append (k : Nat) (s : List Bool) :
    bitsToNat (List.replicate k false ++ s) = bitsToNat s := by
  induction k with
  | zero => rfl
  | succ m ih =>
    rw [List.replicate_succ, List.cons_append, bitsToNat_cons, ih]
    simp

theorem bitsToNat_zfill (n : Nat) (s : List Bool) :
    bitsToNat (zfill n s) = bitsToNat s :=
  bitsToNat_replicate_false_append _ _

theorem bitsToNat_head_true_ge (s : List Bool) (h : s.head? = some true) :
    2 ^ (s.length - 1) ≤ bitsToNat s := by
  rcases s with _ | ⟨b, t⟩
  · simp at h
  · simp at h
    subst h
    rw [bitsToNat_cons]
    simp

theorem natBits_ne_nil (v : Nat) (hv : v ≠ 0) : natBits v ≠ [] := by
  obtain ⟨w, rfl⟩ : ∃ w, v = w + 1 := ⟨v - 1, by omega⟩
  rw [natBits]
  simp

theorem natBits_toNat (v : Nat) : v ≠ 0 → bitsToNat (natBits v) = v := by
  induction v using Nat.strong_induction_on with
  | _ v ih =>
    intro hv
    obtain ⟨w, rfl⟩ : ∃ w, v = w + 1 := ⟨v - 1, by omega⟩
    rw [natBits, bitsToNat_append_singleton]
    by_cases h2 : (w + 1) / 2 = 0
    · have hw : w = 0 := by omega
      subst hw
      norm_num [natBits, bitsToNat]
    · rw [ih ((w + 1) / 2) (Nat.div_lt_self (Nat.succ_pos w) (by omega)) h2]
      rcases Nat.mod_two_eq_zero_or_one (w + 1) with h | h <;> simp [h] <;> omega

theorem natBits_head (v : Nat) (hv : v ≠ 0) : (natBits v).head? = some true := by
  induction v using Nat.strong_induction_on with
  | _ v ih =>
    obtain ⟨w, rfl⟩ : ∃ w, v = w + 1 := ⟨v - 1, by omega⟩
    rw [natBits]
    by_cases h2 : (w + 1) / 2 = 0
    · have hw : w = 0 := by omega
      subst hw
      norm_num [natBits]
    · have hlt : (w + 1) / 2 < w + 1 := Nat.div_lt_self (Nat.succ_pos w) (by omega)
      have hh := ih _ hlt h2
      have hnn := natBits_ne_nil _ h2
      rcases hl : natBits ((w + 1) / 2) with _ | ⟨x, rest⟩
      · exact absurd hl hnn
      · rw [hl] at hh
        simpa using hh

theorem natBits_ofBits (s : List Bool) :
    s.head? = some true → natBits (bitsToNat s) = s := by
  induction s using List.reverseRecOn with
  | nil => intro h; simp at h
  | append_singleton t b ih =>
    intro hhead
    rw [bitsToNat_append_singleton]
    rcases t with _ | ⟨x, u⟩
    · simp at hhead
      subst hhead
      norm_num [natBits, bitsToNat]
    · have hh : (x :: u).head? = some true := by
        simpa using hhead
      simp at hh
      subst hh
      have hpos : 0 < bitsToNat (true :: u) := by
        have := bitsToNat_head_true_ge (true :: u) (by simp)
        have h2 : 0 < 2 ^ ((true :: u).length - 1) := Nat.pos_pow_of_pos _ (by omega)
        omega
      have hrec : natBits (bitsToNat (true :: u)) = true :: u := ih (by simp)
      set B := bitsToNat (true :: u) with hB
      obtain ⟨m, hm⟩ : ∃ m, 2 * B + (if b then 1 else 0) = m + 1 := by
        cases b <;> simp <;> omega
      rw [hm, natBits, ← hm]
      have hdiv : (2 * B + (if b then 1 else 0)) / 2 = B := by
        cases b <;> simp <;> omega
      have hmod : ((2 * B + (if b then 1 else 0)) % 2 == 1) = b := by
        cases b <;> simp [Nat.mul_add_mod] <;> omega
      rw [hdiv, hmod, hrec]

theorem natBits_length_le (v n : Nat) (hv : v < 2 ^ n) (h0 : v ≠ 0) :
    (natBits v).length ≤ n := by
  by_contra hgt
  push_neg at hgt
  have hhead := natBits_head v h0
  have hge := bitsToNat_head_true_ge (natBits v) hhead
  rw [natBits_toNat v h0] at hge
  have : 2 ^ n ≤ 2 ^ ((natBits v).length - 1) :=
    Nat.pow_le_pow_right (by omega) (by omega)
  omega

theorem pyFormatB_length_le (n v : Nat) (hv : v < 2 ^ n) (hn : 1 ≤ n) :
    (pyFormatB v).length ≤ n := by
  unfold pyFormatB
  by_cases h0 : v = 0
  · simp [h0]
    omega
  · simp only [h0, if_false]
    exact natBits_length_le v n hv h0

theorem bitsToNat_natToBits (n v : Nat) (hv : v < 2 ^ n) :
    bitsToNat (natToBits n v) = v := by
  unfold natToBits
  rw [bitsToNat_zfill]
  unfold pyFormatB
  by_cases h0 : v = 0
  · simp [h0, bitsToNat]
  · simp only [h0, if_false]
    exact natBits_toNat v h0

theorem exists_strip (s : List Bool) :
    ∃ k s', s = List.replicate k false ++ s' ∧ (s' = [] ∨ s'.head? = some true) := by
  induction s with
  | nil => exact ⟨0, [], by simp, Or.inl rfl⟩
  | cons b t ih =>
    cases b
    · obtain ⟨k, s', hs, hh⟩ := ih
      exact ⟨k + 1, s', by rw [List.replicate_succ, List.cons_append, ← hs], hh⟩
    · exact ⟨0, true :: t, by simp, Or.inr (by simp)⟩

theorem natToBits_zero (k : Nat) (hk : 1 ≤ k) :
    natToBits k 0 = List.replicate k false := by
  have h1 : pyFormatB 0 = [false] := by unfold pyFormatB; simp
  unfold natToBits zfill
  rw [h1]
  simp only [List.length_singleton]
  rw [← List.replicate_succ']
  congr 1
  omega

theorem natToBits_bitsToNat (s : List Bool) (hn : 1 ≤ s.length) :
    natToBits s.length (bitsToNat s) = s := by
  obtain ⟨k, s', rfl, hh⟩ := exists_strip s
  rw [bitsToNat_replicate_false_append]
  rcases hh with rfl | hh
  · -- all-zero string
    simp only [List.append_nil] at hn ⊢
    rw [List.length_replicate] at hn ⊢
    have h0 : bitsToNat [] = 0 := rfl
    rw [h0, natToBits_zero k hn]
  · -- string with a leading one after `k` zeros
    have hpos : bitsToNat s' ≠ 0 := by
      have := bitsToNat_head_true_ge s' hh
      have h2 : 0 < 2 ^ (s'.length - 1) := Nat.pos_pow_of_pos _ (by omega)
      omega
    unfold natToBits pyFormatB
    simp only [hpos, if_false]
    rw [natBits_ofBits s' hh]
    unfold zfill
    congr 1
    · congr 1
      simp
    -- lengths line up: replicate (k + |s'| - |s'|) = replicate k

theorem bitsToNat_inj (a b : List Bool) (hab : a.length = b.length)
    (h : bitsToNat a = bitsToNat b) : a = b := by
  rcases a with _ | ⟨x, xs⟩
  · cases b
    · rfl
    · simp at hab
  · have hn : 1 ≤ (x :: xs).length := by simp
    have ha := natToBits_bitsToNat (x :: xs) hn
    have hb := natToBits_bitsToNat b (hab ▸ hn)
    rw [← ha, ← hb, h, hab]

theorem bitsLt_iff (a b : List Bool) (hab : a.length = b.length) :
    bitsLt a b = true ↔ bitsToNat a < bitsToNat b := by
  induction a generalizing b with
  | nil =>
    cases b
    · simp [bitsLt]
    · simp at hab
  | cons x xs ih =>
    cases b with
    | nil => simp at hab
    | cons y ys =>
      have hlen : xs.length = ys.length := by simpa using hab
      rw [bitsToNat_cons, bitsToNat_cons, hlen]
      have hx := bitsToNat_lt xs
      have hy := bitsToNat_lt ys
      rw [hlen] at hx
      cases x <;> cases y <;>
        simp [bitsLt, ih ys hlen] <;> omega

theorem pairLe_iff (p q : List Bool × Nat) (h : p.1.length = q.1.length) :
    pairLe p q = true ↔
      (bitsToNat p.1 < bitsToNat q.1 ∨ (p.1 = q.1 ∧ p.2 ≤ q.2)) := by
  unfold pairLe
  rw [Bool.or_eq_true, Bool.and_eq_true, bitsLt_iff _ _ h]
  simp

theorem pairLe_total (p q : List Bool × Nat) (h : p.1.length = q.1.length)
    (hnp : ¬ pairLe p q = true) : pairLe q p = true := by
  rw [pairLe_iff q p h.symm]
  rw [pairLe_iff p q h] at hnp
  push_neg at hnp
  obtain ⟨hlt, himp⟩ := hnp
  by_cases heq : p.1 = q.1
  · exact Or.inr ⟨heq.symm, by have := himp heq; omega⟩
  · left
    rcases Nat.lt_or_ge (bitsToNat q.1) (bitsToNat p.1) with hc | hc
    · exact hc
    · exact absurd (bitsToNat_inj p.1 q.1 h (by omega)) heq

theorem pairLe_trans (p q r : List Bool × Nat)
    (hpq : p.1.length = q.1.length) (hqr : q.1.length = r.1.length)
    (h1 : pairLe p q = true) (h2 : pairLe q r = true) : pairLe p r = true := by
  rw [pairLe_iff p q hpq] at h1
  rw [pairLe_iff q r hqr] at h2
  rw [pairLe_iff p r (hpq.trans hqr)]
  rcases h1 with h1 | ⟨he1, hc1⟩
  · rcases h2 with h2 | ⟨he2, _⟩
    · exact Or.inl (h1.trans h2)
    · exact Or.inl (he2 ▸ h1)
  · rcases h2 with h2 | ⟨he2, hc2⟩
    · exact Or.inl (he1 ▸ h2)
    · exact Or.inr ⟨he1.trans he2, hc1.trans hc2⟩

theorem insertSorted_perm (p : List Bool × Nat) (l : List (List Bool × Nat)) :
    (insertSorted p l).Perm (p :: l) := by
  induction l with
  | nil => exact List.Perm.refl _
  | cons q rest ih =>
    unfold insertSorted
    by_cases h : pairLe p q = true
    · simp only [if_pos h]
      exact List.Perm.refl _
    · simp only [if_neg h]
      exact (ih.cons q).trans (List.Perm.swap p q rest)

theorem sortCounts_perm (l : List (List Bool × Nat)) : (sortCounts l).Perm l := by
  induction l with
  | nil => exact List.Perm.refl _
  | cons p rest ih => exact (insertSorted_perm p _).trans (ih.cons p)

theorem mem_insertSorted (p x : List Bool × Nat) (l : List (List Bool × Nat)) :
    x ∈ insertSorted p l ↔ x = p ∨ x ∈ l := by
  rw [(insertSorted_perm p l).mem_iff, List.mem_cons]

theorem pairwise_insertSorted (n : Nat) (p : List Bool × Nat)
    (l : List (List Bool × Nat)) (hp : p.1.length = n)
    (hl : ∀ q ∈ l, q.1.length = n)
    (hpl : l.Pairwise (fun a b => pairLe a b = true)) :
    (insertSorted p l).Pairwise (fun a b => pairLe a b = true) := by
  induction l with
  | nil => simp [insertSorted]
  | cons q rest ih =>
    rw [List.pairwise_cons] at hpl
    obtain ⟨hq_rest, hrest⟩ := hpl
    have hq : q.1.length = n := hl q (List.mem_cons_self q rest)
    unfold insertSorted
    by_cases h : pairLe p q = true
    · simp only [if_pos h]
      rw [List.pairwise_cons]
      refine ⟨?_, List.pairwise_cons.mpr ⟨hq_rest, hrest⟩⟩
      intro b hb
      rcases List.mem_cons.mp hb with rfl | hb2
      · exact h
      · exact pairLe_trans p q b (hp.trans hq.symm)
          (hq.trans (hl b (List.mem_cons_of_mem q hb2)).symm) h (hq_rest b hb2)
    · simp only [if_neg h]
      rw [List.pairwise_cons]
      constructor
      · intro b hb
        rcases (mem_insertSorted p b rest).mp hb with hb1 | hb2
        · rw [hb1]
          exact pairLe_total p q (hp.trans hq.symm) h
        · exact hq_rest b hb2
      · exact ih (fun r hr => hl r (List.mem_cons_of_mem q hr)) hrest

theorem pairwise_sortCounts (n : Nat) (l : List (List Bool × Nat))
    (hl : ∀ q ∈ l, q.1.length = n) :
    (sortCounts l).Pairwise (fun a b => pairLe a b = true) := by
  induction l with
  | nil => simp [sortCounts]
  | cons p rest ih =>
    exact pairwise_insertSorted n p (sortCounts rest)
      (hl p (List.mem_cons_self p rest))
      (fun q hq => hl q (List.mem_cons_of_mem p ((sortCounts_perm rest).mem_iff.mp hq)))
      (ih (fun q hq => hl q (List.mem_cons_of_mem p hq)))

theorem pairwise_lt_of_pairLe (t : List (List Bool × Nat)) (n : Nat)
    (hl : ∀ q ∈ t, q.1.length = n) (hnd : (t.map Prod.fst).Nodup)
    (hp : t.Pairwise (fun a b => pairLe a b = true)) :
    t.Pairwise (fun a b => bitsToNat a.1 < bitsToNat b.1) := by
  have hne : t.Pairwise (fun a b => a.1 ≠ b.1) := List.pairwise_map.mp hnd
  refine (hp.and hne).imp_of_mem ?_
  intro a b ha hb hab
  obtain ⟨hle, hne2⟩ := hab
  rw [pairLe_iff a b ((hl a ha).trans (hl b hb).symm)] at hle
  rcases hle with hlt | ⟨heq, _⟩
  · exact hlt
  · exact absurd heq hne2

theorem findCount_eq_of_mem (l : List (List Bool × Nat)) (p : List Bool × Nat)
    (hnd : (l.map Prod.fst).Nodup) (hp : p ∈ l) : findCount l p.1 = p.2 := by
  induction l with
  | nil => simp at hp
  | cons q rest ih =>
    rw [List.map_cons, List.nodup_cons] at hnd
    obtain ⟨hq_not, hrest⟩ := hnd
    rcases List.mem_cons.mp hp with rfl | hp2
    · unfold findCount
      simp
    · unfold findCount
      have hne : q.1 ≠ p.1 := by
        intro he
        exact hq_not (he ▸ List.mem_map_of_mem Prod.fst hp2)
      simp only [if_neg hne]
      exact ih hrest hp2

theorem findCount_eq_zero (l : List (List Bool × Nat)) (k : List Bool)
    (hk : k ∉ l.map Prod.fst) : findCount l k = 0 := by
  induction l with
  | nil => rfl
  | cons q rest ih =>
    rw [List.map_cons, List.mem_cons] at hk
    push_neg at hk
    unfold findCount
    simp only [if_neg (Ne.symm hk.1)]
    exact ih hk.2

theorem findCount_perm (l l' : List (List Bool × Nat)) (h : l.Perm l')
    (hnd : (l.map Prod.fst).Nodup) (k : List Bool) :
    findCount l k = findCount l' k := by
  have hnd' : (l'.map Prod.fst).Nodup := (h.map Prod.fst).nodup_iff.mp hnd
  by_cases hk : k ∈ l.map Prod.fst
  · obtain ⟨p, hp, hpk⟩ := List.mem_map.mp hk
    rw [← hpk, findCount_eq_of_mem l p hnd hp,
      findCount_eq_of_mem l' p hnd' (h.mem_iff.mp hp)]
  · rw [findCount_eq_zero l k hk,
      findCount_eq_zero l' k (fun hc => hk ((h.map Prod.fst).mem_iff.mpr hc))]

theorem findCount_mirror (c : List (List Bool × Nat)) (k : List Bool) :
    findCount (c.map (fun p => (p.1.reverse, p.2))) k = findCount c k.reverse := by
  induction c with
  | nil => rfl
  | cons p rest ih =>
    rw [List.map_cons]
    unfold findCount
    by_cases h : p.1.reverse = k
    · have h2 : p.1 = k.reverse := by rw [← h, List.reverse_reverse]
      rw [if_pos h, if_pos h2]
    · have h2 : p.1 ≠ k.reverse := by
        intro hc
        exact h (by rw [hc, List.reverse_reverse])
      rw [if_neg h, if_neg h2]
      exact ih

theorem mem_take_idx {α : Type} {l : List α} {m : Nat} {a : α} (h : a ∈ l.take m) :
    ∃ i, i < m ∧ l[i]? = some a := by
  induction l generalizing m with
  | nil => simp at h
  | cons x t ih =>
    cases m with
    | zero => simp at h
    | succ m2 =>
      rw [List.take_succ_cons] at h
      rcases List.mem_cons.mp h with rfl | h2
      · exact ⟨0, by omega, by simp⟩
      · obtain ⟨i, hi, hg⟩ := ih h2
        exact ⟨i + 1, by omega, by simpa using hg⟩

theorem mem_drop_idx {α : Type} {l : List α} {m : Nat} {a : α} (h : a ∈ l.drop m) :
    ∃ i, m ≤ i ∧ l[i]? = some a := by
  induction l generalizing m with
  | nil => simp at h
  | cons x t ih =>
    cases m with
    | zero =>
      rw [List.drop_zero] at h
      obtain ⟨n, hn, he⟩ := List.getElem_of_mem h
      exact ⟨n, by omega, by rw [List.getElem?_eq_getElem hn, he]⟩
    | succ m2 =>
      rw [List.drop_succ_cons] at h
      obtain ⟨i, hi, hg⟩ := ih h
      exact ⟨i + 1, by omega, by simpa using hg⟩

theorem drop_getElem? {α : Type} (l : List α) (i m : Nat) :
    (l.drop i)[m]? = l[i + m]? := by
  induction l generalizing i with
  | nil => simp
  | cons x t ih =>
    cases i with
    | zero => simp
    | succ i2 =>
      rw [List.drop_succ_cons, ih]
      have : i2 + 1 + m = (i2 + m) + 1 := by omega
      rw [this]
      simp

theorem pyInsert_length {α : Type} (i : Nat) (x : α) (l : List α) (h : i ≤ l.length) :
    (pyInsert i x l).length = l.length + 1 := by
  unfold pyInsert
  simp
  omega

theorem pyInsert_zero {α : Type} (x : α) (l : List α) : pyInsert 0 x l = x :: l := rfl

theorem pyInsert_at_length {α : Type} (x : α) (l : List α) :
    pyInsert l.length x l = l ++ [x] := by
  unfold pyInsert
  rw [List.take_length, List.drop_length]

theorem pyInsert_getElem?_lt {α : Type} (i : Nat) (x : α) (l : List α) (k : Nat)
    (hk : k < i) (hi : i ≤ l.length) : (pyInsert i x l)[k]? = l[k]? := by
  unfold pyInsert
  rw [List.getElem?_append_left (by rw [List.length_take]; omega),
    List.getElem?_take_of_lt hk]

theorem pyInsert_getElem?_self {α : Type} (i : Nat) (x : α) (l : List α)
    (hi : i ≤ l.length) : (pyInsert i x l)[i]? = some x := by
  unfold pyInsert
  have hlen : (l.take i).length = i := by rw [List.length_take]; omega
  rw [List.getElem?_append_right (by omega), hlen, Nat.sub_self]
  simp

theorem pyInsert_getElem?_gt {α : Type} (i : Nat) (x : α) (l : List α) (k : Nat)
    (hk : i < k) (hi : i ≤ l.length) : (pyInsert i x l)[k]? = l[k - 1]? := by
  unfold pyInsert
  have hlen : (l.take i).length = i := by rw [List.length_take]; omega
  rw [List.getElem?_append_right (by omega), hlen]
  obtain ⟨m, hm⟩ : ∃ m, k - i = m + 1 := ⟨k - i - 1, by omega⟩
  rw [hm]
  have h1 : (x :: l.drop i)[m + 1]? = (l.drop i)[m]? := by simp
  rw [h1, drop_getElem?]
  congr 1
  omega

theorem mem_pyInsert {α : Type} (i : Nat) (x : α) (l : List α) (a : α) :
    a ∈ pyInsert i x l ↔ a = x ∨ a ∈ l := by
  unfold pyInsert
  rw [List.mem_append, List.mem_cons]
  constructor
  · rintro (h | h | h)
    · exact Or.inr (List.take_subset i l h)
    · exact Or.inl h
    · exact Or.inr (List.drop_subset i l h)
  · rintro (rfl | h)
    · exact Or.inr (Or.inl rfl)
    · rw [← List.take_append_drop i l] at h
      rcases List.mem_append.mp h with h | h
      · exact Or.inl h
      · exact Or.inr (Or.inr h)

theorem value_ge_index (t : List (List Bool × Nat))
    (hp : t.Pairwise (fun a b => bitsToNat a.1 < bitsToNat b.1))
    (h0 : ∃ q, t[0]? = some q ∧ bitsToNat q.1 = 0) :
    ∀ i p, t[i]? = some p → i ≤ bitsToNat p.1 := by
  have hg := List.pairwise_iff_getElem.mp hp
  intro i
  induction i with
  | zero => intro p _; omega
  | succ m ih =>
    intro p hp2
    obtain ⟨hlt, hval⟩ := List.getElem?_eq_some_iff.mp hp2
    have hm : m < t.length := by omega
    have hmem : t[m]? = some t[m] := List.getElem?_eq_getElem hm
    have h1 : m ≤ bitsToNat t[m].1 := ih t[m] hmem
    have h2 : bitsToNat t[m].1 < bitsToNat t[m + 1].1 := hg m (m + 1) hm hlt (by omega)
    rw [hval] at h2
    omega

/-- Invariant proof of the gap-filling loop: starting from a strictly
increasing list of canonical `(bit string of v, g v)` entries whose first
`j+1` values are `0..j` and whose last value is `2^n - 1`, the remaining
iterations produce the complete histogram of `g` over `0 .. 2^n - 1`. -/
theorem fillLoop_spec (n : Nat) (g : Nat → Nat) :
    ∀ (fuel j : Nat) (t : List (List Bool × Nat)),
      fuel + j = 2 ^ n - 1 →
      t.Pairwise (fun a b => bitsToNat a.1 < bitsToNat b.1) →
      (∀ p ∈ t, p.1 = natToBits n (bitsToNat p.1) ∧ p.2 = g (bitsToNat p.1)) →
      (∀ w, w < 2 ^ n → (∀ p ∈ t, bitsToNat p.1 ≠ w) → g w = 0) →
      (∀ i, i ≤ j → ∃ p, t[i]? = some p ∧ bitsToNat p.1 = i) →
      (∃ p, t[t.length - 1]? = some p ∧ bitsToNat p.1 = 2 ^ n - 1) →
      fillLoop n j fuel t =
        some ((List.range (2 ^ n)).map (fun v => (natToBits n v, g v))) := by
  have hpow : 0 < 2 ^ n := Nat.pos_pow_of_pos n (by omega)
  intro fuel
  induction fuel with
  | zero =>
    intro j t hfj hpw hgood hz hI4 hI5
    have hj : j = 2 ^ n - 1 := by omega
    subst hj
    -- the list is already complete: it equals the target histogram
    have hlen_ge : 2 ^ n ≤ t.length := by
      obtain ⟨p, hp2, _⟩ := hI4 (2 ^ n - 1) (le_refl _)
      have := (List.getElem?_eq_some_iff.mp hp2).1
      omega
    have hlen_le : t.length ≤ 2 ^ n := by
      obtain ⟨q, hq, hqv⟩ := hI5
      have := value_ge_index t hpw
        (by
          obtain ⟨p, hp0, hp0v⟩ := hI4 0 (by omega)
          exact ⟨p, hp0, hp0v⟩) (t.length - 1) q hq
      omega
    have hlen : t.length = 2 ^ n := by omega
    have hteq : t = (List.range (2 ^ n)).map (fun v => (natToBits n v, g v)) := by
      apply List.ext_getElem?
      intro i
      by_cases hi : i < 2 ^ n
      · obtain ⟨p, hp2, hpv⟩ := hI4 i (by omega)
        obtain ⟨hgood1, hgood2⟩ := hgood p (List.getElem?_mem hp2)
        rw [hp2, List.getElem?_map, List.getElem?_range hi]
        have hp_eq : p = (natToBits n i, g i) := by
          have h1 : p.1 = natToBits n i := by rw [hgood1, hpv]
          have h2 : p.2 = g i := by rw [hgood2, hpv]
          exact Prod.ext h1 h2
        rw [hp_eq]
        rfl
      · rw [List.getElem?_eq_none (by omega),
          List.getElem?_eq_none (by simp; omega)]
    rw [hteq]
    rfl
  | succ fuel ih =>
    intro j t hfj hpw hgood hz hI4 hI5
    have hjlt : j < 2 ^ n - 1 := by omega
    obtain ⟨cj, hcj, hcjv⟩ := hI4 j (le_refl _)
    have hjlen : j < t.length := (List.getElem?_eq_some_iff.mp hcj).1
    have hj1len : j + 1 < t.length := by
      by_contra hc
      push_neg at hc
      obtain ⟨p, hp2, hpv⟩ := hI4 (t.length - 1) (by omega)
      obtain ⟨q, hq, hqv⟩ := hI5
      rw [hp2] at hq
      have : p = q := by injection hq
      subst this
      omega
    have hcj1 : t[j + 1]? = some t[j + 1] := List.getElem?_eq_getElem hj1len
    have hcjval : t[j]? = some t[j] := List.getElem?_eq_getElem hjlen
    have hcj_eq : t[j] = cj := by
      rw [hcjval] at hcj
      injection hcj
    have hg := List.pairwise_iff_getElem.mp hpw
    have hgt0 : j < bitsToNat t[j + 1].1 := by
      have := hg j (j + 1) hjlen hj1len (by omega)
      rw [hcj_eq, hcjv] at this
      exact this
    rw [fillLoop, hcj1, hcj]
    by_cases hstep : bitsToNat t[j + 1].1 = bitsToNat cj.1 + 1
    · -- counts[j+1] already has the right value: no insertion
      simp only [hstep, ne_eq, not_true_eq_false, if_neg, ite_false]
      apply ih (j + 1) t (by omega) hpw hgood hz ?_ hI5
      intro i hi
      rcases Nat.lt_or_ge i (j + 1) with hlt | hge
      · exact hI4 i (by omega)
      · have hieq : i = j + 1 := by omega
        subst hieq
        exact ⟨t[j + 1], hcj1, by rw [hstep, hcjv]⟩
    · -- insert the missing element at position j+1
      simp only [ne_eq, hstep, not_false_eq_true, if_pos, ite_true]
      have hj1n : j + 1 < 2 ^ n := by omega
      have hBx : bitsToNat (natToBits n (bitsToNat cj.1 + 1)) = bitsToNat cj.1 + 1 := by
        rw [hcjv]
        exact bitsToNat_natToBits n (j + 1) hj1n
      have hgt : j + 1 < bitsToNat t[j + 1].1 := by
        rw [hcjv] at hstep
        omega
      have hnotin : ∀ p ∈ t, bitsToNat p.1 ≠ j + 1 := by
        intro p hp2 hc
        obtain ⟨i, hi, hie⟩ := List.getElem_of_mem hp2
        rcases Nat.lt_or_ge i (j + 1) with hlt | hge2
        · obtain ⟨p2, hp3, hp3v⟩ := hI4 i (by omega)
          rw [List.getElem?_eq_getElem hi, hie] at hp3
          have : p = p2 := by injection hp3
          subst this
          omega
        · rcases Nat.eq_or_lt_of_le hge2 with heq | hlt2
          · subst heq
            rw [hie] at hgt
            omega
          · have := hg (j + 1) i hj1len hi hlt2
            rw [hie] at this
            omega
      set x : List Bool × Nat := (natToBits n (bitsToNat cj.1 + 1), 0) with hx
      have hBx2 : bitsToNat x.1 = j + 1 := by
        rw [hx, hBx, hcjv]
      -- facts about take/drop membership used for pairwise
      have htake : ∀ a ∈ t.take (j + 1), bitsToNat a.1 < j + 1 := by
        intro a ha
        obtain ⟨i, hi, hie⟩ := mem_take_idx ha
        obtain ⟨p2, hp3, hp3v⟩ := hI4 i (by omega)
        rw [hp3] at hie
        have : p2 = a := by injection hie
        subst this
        omega
      have hdrop : ∀ a ∈ t.drop (j + 1), j + 1 < bitsToNat a.1 := by
        intro a ha
        obtain ⟨i, hi, hie⟩ := mem_drop_idx ha
        rcases Nat.eq_or_lt_of_le hi with heq | hlt2
        · rw [← heq, hcj1] at hie
          have : t[j + 1] = a := by injection hie
          rw [← this]
          exact hgt
        · obtain ⟨hilen, hieq⟩ := List.getElem?_eq_some_iff.mp hie
          have := hg (j + 1) i hj1len hilen hlt2
          rw [hieq] at this
          omega
      have hpw2 : (pyInsert (j + 1) x t).Pairwise
          (fun a b => bitsToNat a.1 < bitsToNat b.1) := by
        unfold pyInsert
        rw [List.pairwise_append]
        refine ⟨List.Pairwise.sublist (List.take_sublist _ _) hpw, ?_, ?_⟩
        · rw [List.pairwise_cons]
          exact ⟨fun a ha => hBx2 ▸ hdrop a ha,
            List.Pairwise.sublist (List.drop_sublist _ _) hpw⟩
        · intro a ha b hb
          have h1 : bitsToNat a.1 < j + 1 := htake a ha
          rcases List.mem_cons.mp hb with rfl | hb2
          · omega
          · have := hdrop b hb2
            omega
      have hgood2 : ∀ p ∈ pyInsert (j + 1) x t,
          p.1 = natToBits n (bitsToNat p.1) ∧ p.2 = g (bitsToNat p.1) := by
        intro p hp2
        rcases (mem_pyInsert _ _ _ _).mp hp2 with rfl | hp3
        · constructor
          · rw [hBx2, hx, hcjv]
          · rw [hBx2, hx]
            exact (hz (j + 1) hj1n hnotin).symm
        · exact hgood p hp3
      have hz2 : ∀ w, w < 2 ^ n →
          (∀ p ∈ pyInsert (j + 1) x t, bitsToNat p.1 ≠ w) → g w = 0 := by
        intro w hw hnot
        exact hz w hw fun p hp2 => hnot p ((mem_pyInsert _ _ _ _).mpr (Or.inr hp2))
      have hI42 : ∀ i, i ≤ j + 1 →
          ∃ p, (pyInsert (j + 1) x t)[i]? = some p ∧ bitsToNat p.1 = i := by
        intro i hi
        rcases Nat.lt_or_ge i (j + 1) with hlt | hge
        · obtain ⟨p, hp2, hpv⟩ := hI4 i (by omega)
          exact ⟨p, by rw [pyInsert_getElem?_lt _ _ _ _ hlt (by omega), hp2], hpv⟩
        · have hieq : i = j + 1 := by omega
          subst hieq
          exact ⟨x, pyInsert_getElem?_self _ _ _ (by omega), hBx2⟩
      have hI52 : ∃ p, (pyInsert (j + 1) x t)[(pyInsert (j + 1) x t).length - 1]? = some p ∧
          bitsToNat p.1 = 2 ^ n - 1 := by
        obtain ⟨q, hq, hqv⟩ := hI5
        refine ⟨q, ?_, hqv⟩
        rw [pyInsert_length _ _ _ (by omega)]
        rw [pyInsert_getElem?_gt _ _ _ _ (by omega) (by omega)]
        simpa using hq
      exact ih (j + 1) (pyInsert (j + 1) x t) (by omega) hpw2 hgood2 hz2 hI42 hI52

theorem le_getLast_of_pairwise (t : List (List Bool × Nat))
    (hpw : t.Pairwise (fun a b => bitsToNat a.1 < bitsToNat b.1))
    (cl : List Bool × Nat) (hcl : t.getLast? = some cl) :
    ∀ a ∈ t, bitsToNat a.1 ≤ bitsToNat cl.1 := by
  intro a ha
  rw [List.getLast?_eq_getElem?] at hcl
  obtain ⟨hlast, hcleq⟩ := List.getElem?_eq_some_iff.mp hcl
  obtain ⟨i, hi, hie⟩ := List.getElem_of_mem ha
  have hg := List.pairwise_iff_getElem.mp hpw
  rcases Nat.lt_or_ge i (t.length - 1) with hlt | hge
  · have := hg i (t.length - 1) hi (by omega) hlt
    rw [hie, hcleq] at this
    omega
  · have hieq : i = t.length - 1 := by omega
    subst hieq
    rw [hie] at hcleq
    rw [hcleq]

/-- Correctness of everything `fix_counts` does after sorting: given a
sorted list of canonical `(bit string of v, g v)` entries with values below
`2^n`, the zero/ones insertions and the fill loop produce the full
histogram of `g` over `0 .. 2^n - 1`. -/
theorem fixAfterSort_spec (n : Nat) (g : Nat → Nat) (s : List (List Bool × Nat))
    (hn : 1 ≤ n)
    (hpw : s.Pairwise (fun a b => bitsToNat a.1 < bitsToNat b.1))
    (hgood : ∀ p ∈ s, p.1 = natToBits n (bitsToNat p.1) ∧ p.2 = g (bitsToNat p.1))
    (hz : ∀ w, w < 2 ^ n → (∀ p ∈ s, bitsToNat p.1 ≠ w) → g w = 0)
    (hub : ∀ p ∈ s, bitsToNat p.1 < 2 ^ n)
    (hne : s ≠ []) :
    fixAfterSort n s =
      some ((List.range (2 ^ n)).map (fun v => (natToBits n v, g v))) := by
  have hpow : 0 < 2 ^ n := Nat.pos_pow_of_pos n (by omega)
  obtain ⟨c0, tl, rfl⟩ := List.exists_cons_of_ne_nil hne
  rw [fixAfterSort]
  simp only [List.head?_cons]
  -- stage 1: ensure the zero string is present at the head
  set s0 : List (List Bool × Nat) := c0 :: tl with hs0
  have hstage1 : ∀ t1, t1 = (if bitsToNat c0.1 ≠ 0
        then pyInsert 0 (natToBits n 0, 0) s0 else s0) →
      t1.Pairwise (fun a b => bitsToNat a.1 < bitsToNat b.1) ∧
      (∀ p ∈ t1, p.1 = natToBits n (bitsToNat p.1) ∧ p.2 = g (bitsToNat p.1)) ∧
      (∀ w, w < 2 ^ n → (∀ p ∈ t1, bitsToNat p.1 ≠ w) → g w = 0) ∧
      (∀ p ∈ t1, bitsToNat p.1 < 2 ^ n) ∧
      (∃ p, t1[0]? = some p ∧ bitsToNat p.1 = 0) ∧ t1 ≠ [] := by
    intro t1 ht1
    by_cases h0 : bitsToNat c0.1 = 0
    · rw [ht1, if_neg (by omega)]
      exact ⟨hpw, hgood, hz, hub, ⟨c0, by simp [hs0], h0⟩, hne⟩
    · rw [ht1, if_pos (by omega), pyInsert_zero]
      have hzero_lt : ∀ p ∈ s0, 0 < bitsToNat p.1 := by
        intro p hp
        rcases List.mem_cons.mp hp with rfl | hp2
        · omega
        · have := (List.pairwise_cons.mp hpw).1 p hp2
          omega
      have hB0 : bitsToNat (natToBits n 0, (0 : Nat)).1 = 0 := by
        show bitsToNat (natToBits n 0) = 0
        exact bitsToNat_natToBits n 0 hpow
      refine ⟨?_, ?_, ?_, ?_, ?_, by simp⟩
      · rw [List.pairwise_cons]
        refine ⟨fun p hp => ?_, hpw⟩
        rw [hB0]
        exact hzero_lt p hp
      · intro p hp
        rcases List.mem_cons.mp hp with rfl | hp2
        · refine ⟨by rw [hB0], ?_⟩
          rw [hB0]
          exact (hz 0 hpow (fun q hq => by have := hzero_lt q hq; omega)).symm
        · exact hgood p hp2
      · intro w hw hnot
        exact hz w hw fun p hp => hnot p (List.mem_cons_of_mem _ hp)
      · intro p hp
        rcases List.mem_cons.mp hp with rfl | hp2
        · rw [hB0]; omega
        · exact hub p hp2
      · exact ⟨(natToBits n 0, 0), by simp, hB0⟩
  obtain ⟨hpw1, hgood1, hz1, hub1, hI40, hne1⟩ :=
    hstage1 _ rfl
  set t1 : List (List Bool × Nat) := (if bitsToNat c0.1 ≠ 0
    then pyInsert 0 (natToBits n 0, 0) s0 else s0) with ht1def
  -- t1 is nonempty, so counts1.getLast? is some
  obtain ⟨cl, hcl⟩ : ∃ cl, t1.getLast? = some cl := by
    rcases hgl : t1.getLast? with _ | cl
    · rw [List.getLast?_eq_none_iff] at hgl
      exact absurd hgl hne1
    · exact ⟨cl, rfl⟩
  rw [hcl]
  show fillLoop n 0 (2 ^ n - 1)
      (if bitsToNat cl.1 ≠ 2 ^ n - 1
       then pyInsert t1.length (natToBits n (2 ^ n - 1), 0) t1 else t1) =
    some ((List.range (2 ^ n)).map (fun v => (natToBits n v, g v)))
  have hle_last : ∀ a ∈ t1, bitsToNat a.1 ≤ bitsToNat cl.1 :=
    le_getLast_of_pairwise t1 hpw1 cl hcl
  have hcl_mem : cl ∈ t1 := by
    rw [List.getLast?_eq_getElem?] at hcl
    exact List.getElem?_mem hcl
  -- stage 2: ensure the all-ones string is present at the end
  by_cases h1 : bitsToNat cl.1 = 2 ^ n - 1
  · -- no insertion needed
    rw [if_neg (by omega)]
    apply fillLoop_spec n g (2 ^ n - 1) 0 t1 (by omega) hpw1 hgood1 hz1
      (fun i hi => by rw [Nat.le_zero.mp hi]; exact hI40)
    obtain ⟨p, hp, hpv⟩ := hI40
    rw [List.getLast?_eq_getElem?] at hcl
    exact ⟨cl, hcl, h1⟩
  · rw [if_pos (by omega), pyInsert_at_length]
    set xu : List Bool × Nat := (natToBits n (2 ^ n - 1), 0) with hxu
    have hBu : bitsToNat xu.1 = 2 ^ n - 1 := by
      show bitsToNat (natToBits n (2 ^ n - 1)) = 2 ^ n - 1
      exact bitsToNat_natToBits n (2 ^ n - 1) (by omega)
    have hlt_last : ∀ a ∈ t1, bitsToNat a.1 < 2 ^ n - 1 := by
      intro a ha
      have h2 := hle_last a ha
      have h3 := hub1 cl hcl_mem
      omega
    apply fillLoop_spec n g (2 ^ n - 1) 0 (t1 ++ [xu]) (by omega)
    · rw [List.pairwise_append]
      refine ⟨hpw1, by simp, ?_⟩
      intro a ha b hb
      rcases List.mem_singleton.mp hb with rfl
      rw [hBu]
      exact hlt_last a ha
    · intro p hp
      rcases List.mem_append.mp hp with hp2 | hp2
      · exact hgood1 p hp2
      · rcases List.mem_singleton.mp hp2 with rfl
        refine ⟨by rw [hBu, hxu], ?_⟩
        rw [hBu, hxu]
        exact (hz1 (2 ^ n - 1) (by omega)
          (fun q hq => by have := hlt_last q hq; omega)).symm
    · intro w hw hnot
      exact hz1 w hw fun p hp => hnot p (List.mem_append_left _ hp)
    · intro i hi
      rw [Nat.le_zero.mp hi]
      obtain ⟨p, hp, hpv⟩ := hI40
      refine ⟨p, ?_, hpv⟩
      rw [List.getElem?_append_left (List.length_pos.mpr hne1)]
      exact hp
    · refine ⟨xu, ?_, hBu⟩
      have hlen : (t1 ++ [xu]).length = t1.length + 1 := by simp
      rw [hlen, Nat.add_sub_cancel, List.getElem?_append_right (le_refl _),
        Nat.sub_self]
      rfl

/-- C1: for `n_qubits ≥ 1` and a non-empty dict whose keys are distinct
length-`n_qubits` bit strings, `fix_counts` returns exactly the `2 ^ n`
pairs in increasing numeric order of the bit string — entry `v` is the
canonical string of `v`, so every length-`n` string occurs exactly once —
pairing string `s` with `counts_0[reverse s]` when present and 0
otherwise. -/
theorem fix_counts_histogram (counts_0 : List (List Bool × Nat)) (n : Nat)
    (hn : 1 ≤ n) (hne : counts_0 ≠ [])
    (hlen : ∀ p ∈ counts_0, p.1.length = n)
    (hnd : (counts_0.map Prod.fst).Nodup) :
    fix_counts counts_0 n =
      some ((List.range (2 ^ n)).map
        (fun v => (natToBits n v, findCount counts_0 (natToBits n v).reverse))) := by
  show fixAfterSort n (sortCounts (counts_0.map (fun p => (p.1.reverse, p.2)))) =
    some ((List.range (2 ^ n)).map
      (fun v => (natToBits n v, findCount counts_0 (natToBits n v).reverse)))
  set m : List (List Bool × Nat) := counts_0.map (fun p => (p.1.reverse, p.2)) with hm
  set s : List (List Bool × Nat) := sortCounts m with hs
  have hperm : s.Perm m := sortCounts_perm m
  have hmlen : ∀ p ∈ m, p.1.length = n := by
    intro p hp
    rw [hm] at hp
    obtain ⟨q, hq, rfl⟩ := List.mem_map.mp hp
    simpa using hlen q hq
  have hmkeys : m.map Prod.fst = (counts_0.map Prod.fst).map List.reverse := by
    rw [hm, List.map_map, List.map_map]
    rfl
  have hmnd : (m.map Prod.fst).Nodup := by
    rw [hmkeys]
    exact hnd.map List.reverse_injective
  have hslen : ∀ p ∈ s, p.1.length = n := fun p hp => hmlen p (hperm.mem_iff.mp hp)
  have hsnd : (s.map Prod.fst).Nodup := ((hperm.map Prod.fst).nodup_iff).mpr hmnd
  have hspair : s.Pairwise (fun a b => pairLe a b = true) :=
    pairwise_sortCounts n m hmlen
  have hslt : s.Pairwise (fun a b => bitsToNat a.1 < bitsToNat b.1) :=
    pairwise_lt_of_pairLe s n hslen hsnd hspair
  have hsne : s ≠ [] := by
    intro hnil
    rw [hnil] at hperm
    have hm_nil : m = [] := hperm.symm.eq_nil
    rw [hm, List.map_eq_nil_iff] at hm_nil
    exact hne hm_nil
  have hfind : ∀ k, findCount s k = findCount m k :=
    fun k => (findCount_perm m s hperm.symm hmnd k).symm
  have hmirror : ∀ k, findCount m k = findCount counts_0 k.reverse := by
    intro k
    rw [hm]
    exact findCount_mirror counts_0 k
  have hgood : ∀ p ∈ s, p.1 = natToBits n (bitsToNat p.1) ∧
      p.2 = findCount counts_0 (natToBits n (bitsToNat p.1)).reverse := by
    intro p hp
    have hkey : p.1 = natToBits n (bitsToNat p.1) := by
      have h2 := natToBits_bitsToNat p.1 (by rw [hslen p hp]; omega)
      rw [hslen p hp] at h2
      exact h2.symm
    refine ⟨hkey, ?_⟩
    rw [← hkey, ← hmirror p.1, ← hfind p.1]
    exact (findCount_eq_of_mem s p hsnd hp).symm
  have hzs : ∀ w, w < 2 ^ n → (∀ p ∈ s, bitsToNat p.1 ≠ w) →
      findCount counts_0 (natToBits n w).reverse = 0 := by
    intro w hw hnot
    apply findCount_eq_zero
    intro hc
    obtain ⟨q, hq, hqfst⟩ := List.mem_map.mp hc
    have hqrev : q.1.reverse = natToBits n w := by
      have h2 := congrArg List.reverse hqfst
      rwa [List.reverse_reverse] at h2
    have hqs : (q.1.reverse, q.2) ∈ s := by
      apply hperm.mem_iff.mpr
      rw [hm]
      exact List.mem_map_of_mem _ hq
    apply hnot (q.1.reverse, q.2) hqs
    show bitsToNat q.1.reverse = w
    rw [hqrev]
    exact bitsToNat_natToBits n w hw
  have hub : ∀ p ∈ s, bitsToNat p.1 < 2 ^ n := by
    intro p hp
    have h2 := bitsToNat_lt p.1
    rwa [hslen p hp] at h2
  exact fixAfterSort_spec n (fun v => findCount counts_0 (natToBits n v).reverse)
    s hn hslt hgood hzs hub hsne

/-- Witness for C1 at the concrete input `counts_0 = {"1": 5}`,
`n_qubits = 1`. -/
theorem fix_counts_histogram_witness :
    fix_counts [([true], 5)] 1 =
      some ((List.range (2 ^ 1)).map
        (fun v => (natToBits 1 v, findCount [([true], 5)] (natToBits 1 v).reverse))) :=
  fix_counts_histogram [([true], 5)] 1 (by decide) (by decide)
    (by decide) (by decide)

/-- C10: applied to an empty dict, `fix_counts` fails with an out-of-range
access (`counts[0]` on the empty sorted list; `none` in the embedding)
instead of returning an all-zero histogram, for every `n_qubits`. -/
theorem fix_counts_empty_fails (n_qubits : Nat) : fix_counts [] n_qubits = none := rfl

theorem foldl_add_range (f : Nat → ℝ) (n : Nat) :
    (List.range n).foldl (fun acc i => acc + f i) 0 =
      ∑ i ∈ Finset.range n, f i := by
  induction n with
  | zero => simp
  | succ m ih =>
    rw [List.range_succ, List.foldl_append, ih, Finset.sum_range_succ]
    simp

/-- C3: for every `nqubits` and arrays with non-negative entries (below the
index bound `2^nqubits`), the function returns
`(1/sqrt 2) * sqrt (Σ_{i < 2^nqubits} (sqrt (p_real i) - sqrt (p_ng i))^2)`,
the Hellinger distance of the two distributions restricted to the first
`2^nqubits` entries. -/
theorem compute_Hellinger_distance_eq (p_ng p_real : Nat → ℝ) (nqubits : Nat)
    (h1 : ∀ i < 2 ^ nqubits, 0 ≤ p_ng i) (h2 : ∀ i < 2 ^ nqubits, 0 ≤ p_real i) :
    compute_Hellinger_distance p_ng p_real nqubits =
      (1 / Real.sqrt 2) * Real.sqrt (∑ i ∈ Finset.range (2 ^ nqubits),
        (Real.sqrt (p_real i) - Real.sqrt (p_ng i)) ^ 2) := by
  show (1 / Real.sqrt 2) * Real.sqrt ((List.range (2 ^ nqubits)).foldl
      (fun acc i => acc + (Real.sqrt (p_real i) - Real.sqrt (p_ng i)) ^ 2) 0) = _
  rw [foldl_add_range (fun i => (Real.sqrt (p_real i) - Real.sqrt (p_ng i)) ^ 2)]

/-- Witness for C3 at `p_ng = p_real = 0`, `nqubits = 1`. -/
theorem compute_Hellinger_distance_eq_witness :
    compute_Hellinger_distance (fun _ => 0) (fun _ => 0) 1 =
      (1 / Real.sqrt 2) * Real.sqrt (∑ i ∈ Finset.range (2 ^ 1),
        (Real.sqrt 0 - Real.sqrt 0) ^ 2) :=
  compute_Hellinger_distance_eq (fun _ => 0) (fun _ => 0) 1
    (fun i _ => le_refl 0) (fun i _ => le_refl 0)

/-- Ceiling of a rational division of naturals, in the form the code
computes it. -/
theorem nat_ceil_div_eq (len np : Nat) (h : 1 ≤ np) :
    Nat.ceil ((len : ℚ) / np) = len / np + (if len % np > 0 then 1 else 0) := by
  have hnp0 : (0 : ℚ) < np := by exact_mod_cast h
  have hdm : np * (len / np) + len % np = len := Nat.div_add_mod len np
  have hmlt : len % np < np := Nat.mod_lt len (by omega)
  rcases Nat.eq_zero_or_pos (len % np) with hz | hp
  · rw [hz]
    simp only [gt_iff_lt, lt_self_iff_false, if_false, Nat.add_zero]
    have hlen : (len : ℚ) = (np : ℚ) * ((len / np : ℕ) : ℚ) := by
      have h2 : len = np * (len / np) :=
        (Nat.mul_div_cancel' (Nat.dvd_of_mod_eq_zero hz)).symm
      exact_mod_cast h2
    rw [hlen, mul_div_cancel_left₀ _ (ne_of_gt hnp0), Nat.ceil_natCast]
  · rw [if_pos hp, Nat.ceil_eq_iff (Nat.succ_ne_zero _)]
    have hq : np * (len / np) < len := by
      conv_rhs => rw [← hdm]
      exact Nat.lt_add_of_pos_right hp
    have hq2 : len ≤ np * (len / np) + np := by
      conv_lhs => rw [← hdm]
      exact Nat.add_le_add_left (le_of_lt hmlt) _
    constructor
    · have hs : (len / np + 1 - 1) = len / np := rfl
      rw [hs, lt_div_iff hnp0]
      calc ((len / np : ℕ) : ℚ) * np = ((np * (len / np) : ℕ) : ℚ) := by
            push_cast
            ring
        _ < len := by exact_mod_cast hq
    · rw [div_le_iff hnp0]
      calc (len : ℚ) ≤ ((np * (len / np) + np : ℕ) : ℚ) := by exact_mod_cast hq2
        _ = ((len / np + 1 : ℕ) : ℚ) * np := by
            push_cast
            ring

/-- C5: with `c ≥ 1` CPUs, the pool uses `max(floor(0.8 * c), 2)` processes
(the floor over exact rationals), and the chunk size passed to
`imap_unordered` is `max(1, ceil(len(args) / n_processes))`, i.e.
`len(args) / n_processes` (integer division) plus 1 exactly when
`len(args)` is not divisible by `n_processes`. -/
theorem pool_parameters_spec {α : Type} (args : List α) (c : Nat) (hc : 1 ≤ c) :
    n_processes c = max (Nat.floor ((4 : ℚ) / 5 * c)) 2 ∧
    chunksize args.length (n_processes c) =
      max 1 (Nat.ceil ((args.length : ℚ) / (n_processes c))) ∧
    chunksize args.length (n_processes c) =
      max 1 (args.length / n_processes c +
        if n_processes c ∣ args.length then 0 else 1) := by
  have hnp : 1 ≤ n_processes c := by
    unfold n_processes
    omega
  refine ⟨?_, ?_, ?_⟩
  · unfold n_processes
    have hcast : (4 : ℚ) / 5 * c = ((4 * c : ℕ) : ℚ) / ((5 : ℕ) : ℚ) := by
      push_cast
      ring
    rw [hcast]
    have hfl := Nat.floor_div_nat ((4 * c : ℕ) : ℚ) 5
    rw [Nat.floor_natCast] at hfl
    rw [hfl]
  · unfold chunksize
    rw [nat_ceil_div_eq args.length (n_processes c) hnp]
  · unfold chunksize
    congr 1
    rcases Nat.eq_zero_or_pos (args.length % n_processes c) with hz | hp
    · rw [hz, if_pos (Nat.dvd_of_mod_eq_zero hz)]
      norm_num
    · rw [if_pos hp, if_neg (fun hdvd => by
        rw [Nat.mod_eq_zero_of_dvd hdvd] at hp
        omega)]

/-- Witness for C5 at `args = [0, 1, 2]`, `c = 4`. -/
theorem pool_parameters_spec_witness :
    n_processes 4 = max (Nat.floor ((4 : ℚ) / 5 * 4)) 2 ∧
    chunksize ([0, 1, 2] : List Nat).length (n_processes 4) =
      max 1 (Nat.ceil ((([0, 1, 2] : List Nat).length : ℚ) / (n_processes 4))) ∧
    chunksize ([0, 1, 2] : List Nat).length (n_processes 4) =
      max 1 (([0, 1, 2] : List Nat).length / n_processes 4 +
        if n_processes 4 ∣ ([0, 1, 2] : List Nat).length then 0 else 1) :=
  pool_parameters_spec ([0, 1, 2] : List Nat) 4 (by omega)

theorem foldl_append_singleton {α β : Type} (f : α → β) (l : List α)
    (acc : List β) :
    l.foldl (fun r x => r ++ [f x]) acc = acc ++ l.map f := by
  induction l generalizing acc with
  | nil => simp
  | cons x t ih =>
    rw [List.foldl_cons, ih, List.map_cons]
    simp

/-- C6: `create_qc_list` returns the list with exactly one entry per entry
of `nqubits_list`, in order: entry `i` is the second-stage transpilation
(against `backend` with initial layout `qubits_layout[0:nqubits_list[i]]`)
of the first-stage transpilation (against the Aer simulator with the
bidirectional line coupling map) of `circuit_generator(nqubits_list[i])`.
The `map` form gives both the length equality and the in-order 1:1
correspondence. -/
theorem create_qc_list_spec {Circuit Simulator CMap Backend : Type}
    (transpileSim : Circuit → Simulator → CMap → Circuit)
    (transpileBackend : Circuit → Backend → List Nat → Circuit)
    (aer : Simulator) (fromLine : Nat → CMap)
    (circuit_generator : Nat → Circuit) (nqubits_list : List Nat)
    (qubits_layout : List Nat) (backend : Backend) :
    create_qc_list transpileSim transpileBackend aer fromLine
        circuit_generator nqubits_list qubits_layout backend =
      nqubits_list.map (fun nqubit =>
        transpileBackend
          (transpileSim (circuit_generator nqubit) aer (fromLine nqubit))
          backend (qubits_layout.take nqubit)) := by
  unfold create_qc_list
  rw [foldl_append_singleton]
  simp

theorem foldl_arr_pointwise (fs : FS) (l : List String) (arr0 : Nat → ℚ) (k : Nat) :
    (l.foldl (fun arr sf => fun k2 => arr k2 + np_loadtxt fs sf k2) arr0) k =
      l.foldl (fun acc sf => acc + np_loadtxt fs sf k) (arr0 k) := by
  induction l generalizing arr0 with
  | nil => rfl
  | cons x t ih =>
    rw [List.foldl_cons, List.foldl_cons]
    exact ih (fun k2 => arr0 k2 + np_loadtxt fs x k2)

theorem foldl_add_shift (g : String → ℚ) (l : List String) (a : ℚ) :
    l.foldl (fun acc sf => acc + g sf) a =
      a + l.foldl (fun acc sf => acc + g sf) 0 := by
  induction l generalizing a with
  | nil => simp
  | cons x t ih =>
    rw [List.foldl_cons, List.foldl_cons, ih, ih (0 + g x)]
    ring

theorem foldl_load_congr (fs fs0 : FS) (k : Nat) (l : List String)
    (h : ∀ sf ∈ l, fs sf = fs0 sf) (a : ℚ) :
    l.foldl (fun acc sf => acc + np_loadtxt fs sf k) a =
      l.foldl (fun acc sf => acc + np_loadtxt fs0 sf k) a := by
  induction l generalizing a with
  | nil => rfl
  | cons x t ih =>
    rw [List.foldl_cons, List.foldl_cons]
    have hx : np_loadtxt fs x = np_loadtxt fs0 x := by
      unfold np_loadtxt
      rw [h x (List.mem_cons_self x t)]
    rw [hx]
    exact ih (fun sf hsf => h sf (List.mem_cons_of_mem _ hsf)) _

/-- The loop body writes the claimed group mean, as long as the current
file system agrees with the pre-call one on all source files. -/
theorem step_mean_eq (fs0 fs : FS) (srcs : List String) (split i : Nat)
    (hagree : ∀ sf ∈ srcs, fs sf = fs0 sf)
    (hi : i < srcs.length) (hsplit : 1 ≤ split) :
    stepMean fs srcs split i = groupMean fs0 srcs split i := by
  funext k
  unfold stepMean groupMean
  show (((srcs.drop (i + 1)).take (split - 1)).foldl
      (fun arr source_file => fun k2 => arr k2 + np_loadtxt fs source_file k2)
      (np_loadtxt fs (srcs.getD i ""))) k / (split : ℚ) = _
  congr 1
  have hgetD : srcs.getD i "" = srcs[i] := by
    rw [List.getD_eq_getElem?_getD, List.getElem?_eq_getElem hi]
    rfl
  have hdecomp : (srcs.drop i).take split =
      srcs[i] :: (srcs.drop (i + 1)).take (split - 1) := by
    rw [List.drop_eq_getElem_cons hi]
    obtain ⟨m, rfl⟩ : ∃ m, split = m + 1 := ⟨split - 1, by omega⟩
    rw [List.take_succ_cons]
    rfl
  rw [foldl_arr_pointwise, hdecomp, List.foldl_cons]
  have hmem_tail : ∀ sf ∈ (srcs.drop (i + 1)).take (split - 1), fs sf = fs0 sf :=
    fun sf hsf => hagree sf (List.drop_subset _ _ (List.take_subset _ _ hsf))
  rw [foldl_load_congr fs fs0 k _ hmem_tail, foldl_add_shift,
    foldl_add_shift _ _ (0 + np_loadtxt fs0 srcs[i] k)]
  have hload : np_loadtxt fs (srcs.getD i "") = np_loadtxt fs0 srcs[i] := by
    rw [hgetD]
    unfold np_loadtxt
    rw [hagree _ (List.getElem?_mem (List.getElem?_eq_getElem hi))]
  rw [hload]
  ring

theorem processTargets_cons (srcs : List String) (split : Nat) (fs : FS)
    (tf : String) (rest : List String) (i : Nat) :
    processTargets srcs split fs (tf :: rest) i =
      ((processTargets srcs split
          (np_savetxt fs tf (stepMean fs srcs split i)) rest (i + split)).1,
       (tf, stepMean fs srcs split i) ::
         (processTargets srcs split
           (np_savetxt fs tf (stepMean fs srcs split i)) rest (i + split)).2) := rfl

/-- The write-event list of the loop: event `j` writes the group mean of
the sources starting at `i + j * split`, provided targets never alias
sources. -/
theorem processTargets_events (fs0 : FS) (srcs : List String) (split : Nat)
    (hsplit : 1 ≤ split) :
    ∀ (tgts : List String) (fs : FS) (i : Nat),
      (∀ sf ∈ srcs, fs sf = fs0 sf) →
      (∀ t ∈ tgts, t ∉ srcs) →
      i + split * tgts.length = srcs.length →
      ∀ j, j < tgts.length →
        ∃ t, tgts[j]? = some t ∧
          (processTargets srcs split fs tgts i).2[j]? =
            some (t, groupMean fs0 srcs split (i + j * split)) := by
  intro tgts
  induction tgts with
  | nil =>
    intro fs i _ _ _ j hj
    simp at hj
  | cons tf rest ih =>
    intro fs i hagree hdisj hlen j hj
    have hi : i < srcs.length := by
      have hmul : split * (rest.length + 1) = split * rest.length + split :=
        Nat.mul_succ split rest.length
      rw [List.length_cons] at hlen
      omega
    have hmean := step_mean_eq fs0 fs srcs split i hagree hi hsplit
    rw [processTargets_cons]
    cases j with
    | zero =>
      refine ⟨tf, by simp, ?_⟩
      show ((tf, stepMean fs srcs split i) :: _)[0]? = _
      rw [List.getElem?_cons_zero, hmean, Nat.zero_mul, Nat.add_zero]
    | succ m =>
      have hagree2 : ∀ sf ∈ srcs,
          np_savetxt fs tf (stepMean fs srcs split i) sf = fs0 sf := by
        intro sf hsf
        unfold np_savetxt
        rw [if_neg (fun he => hdisj tf (List.mem_cons_self tf rest)
          (by rw [← he]; exact hsf))]
        exact hagree sf hsf
      have hlen2 : (i + split) + split * rest.length = srcs.length := by
        have hmul : split * (rest.length + 1) = split * rest.length + split :=
          Nat.mul_succ split rest.length
        rw [List.length_cons] at hlen
        omega
      obtain ⟨t, ht1, ht2⟩ := ih (np_savetxt fs tf (stepMean fs srcs split i))
        (i + split) hagree2
        (fun t ht => hdisj t (List.mem_cons_of_mem tf ht))
        hlen2 m (by simpa using hj)
      refine ⟨t, by simpa using ht1, ?_⟩
      show ((tf, stepMean fs srcs split i) :: _)[m + 1]? = _
      rw [List.getElem?_cons_succ, ht2]
      have harith : i + split + m * split = i + (m + 1) * split := by
        have hmul : (m + 1) * split = m * split + split := Nat.succ_mul m split
        omega
      rw [harith]

/-- C2 (amended with disjointness): if the call passes its four assertions
and no target filename occurs among the source filenames, then the `j`-th
write is to `target_filenames[j]` and writes exactly the element-wise mean
(over the pre-call file contents) of the group of `split` sources starting
at `j * split`. -/
theorem post_process_split_groups (fs : FS) (srcs tgts : List String)
    (split : Nat) (res : FS × List (String × (Nat → ℚ)))
    (hok : post_process_split fs srcs tgts split = Except.ok res)
    (hdisj : ∀ t ∈ tgts, t ∉ srcs) :
    ∀ j, j < tgts.length → ∃ t, tgts[j]? = some t ∧
      res.2[j]? = some (t, groupMean fs srcs split (j * split)) := by
  unfold post_process_split at hok
  split_ifs at hok with h1 h2 h3 h4
  rw [Except.ok.injEq] at hok
  subst hok
  intro j hj
  have hev := processTargets_events fs srcs split (by omega) tgts fs 0
    (fun _ _ => rfl) hdisj (by omega) j hj
  simpa using hev

/-- Counterexample to C2 as stated: on `exFS` the call passes all four
assertions (the result is `ok`), yet the array written to
`target_filenames[1] = "b"` is not the mean of the pre-call contents of
sources 2 and 3 (it is 0 at index 0, while that mean is 1 at index 0),
because source `"a"` was overwritten by the first write. -/
theorem post_process_split_alias_counterexample :
    (post_process_split exFS ["s1", "s2", "a", "s4"] ["a", "b"] 2).toOption.isSome
      = true ∧
    ((post_process_split exFS ["s1", "s2", "a", "s4"] ["a", "b"] 2).toOption.bind
        (fun res => res.2[1]?)).map (fun e => (e.1, e.2 0)) ≠
      some ("b", groupMean exFS ["s1", "s2", "a", "s4"] 2 (1 * 2) 0) := by
  constructor
  · rfl
  · have hred : ((post_process_split exFS ["s1", "s2", "a", "s4"] ["a", "b"] 2).toOption.bind
        (fun res => res.2[1]?)).map (fun e => (e.1, e.2 0)) =
      some ("b", stepMean (np_savetxt exFS "a" (stepMean exFS ["s1", "s2", "a", "s4"] 2 0))
        ["s1", "s2", "a", "s4"] 2 (0 + 2) 0) := rfl
    rw [hred]
    intro hc
    rw [Option.some.injEq, Prod.mk.injEq] at hc
    have hval : stepMean (np_savetxt exFS "a" (stepMean exFS ["s1", "s2", "a", "s4"] 2 0))
        ["s1", "s2", "a", "s4"] 2 (0 + 2) 0 = 0 := by
      norm_num [stepMean, np_savetxt, np_loadtxt, exFS]
    have hgm : groupMean exFS ["s1", "s2", "a", "s4"] 2 (1 * 2) 0 = 1 := by
      have ha : exFS "a" = some (fun _ => 2) := by
        unfold exFS
        rw [if_neg (by decide), if_pos rfl]
      have hs4 : exFS "s4" = some (fun _ => 0) := by
        unfold exFS
        rw [if_pos (by decide)]
      norm_num [groupMean, np_loadtxt, ha, hs4]
    rw [hval, hgm] at hc
    exact absurd hc.2 (by norm_num)

/-- Witness for the amended C2 at `sources = [x, y]`, `targets = [t]`,
`split = 2`. -/
theorem post_process_split_groups_witness :
    ∃ t, (["t"] : List String)[0]? = some t ∧
      (processTargets ["x", "y"] 2 fsW ["t"] 0).2[0]? =
        some (t, groupMean fsW ["x", "y"] 2 (0 * 2)) :=
  post_process_split_groups fsW ["x", "y"] ["t"] 2
    (processTargets ["x", "y"] 2 fsW ["t"] 0) rfl
    (by decide) 0 (by decide)

/-- C4: whenever `split * len(targets) ≠ len(sources)`, or some source is
not an existing file, or `split ≤ 1`, the call raises `AssertionError` (an
`Except.error`).  The four asserts run before the write loop, so the error
result carries no modified file system — no target file is written or
created on this path; these up-front assertions are the only failure
handling. -/
theorem post_process_split_asserts (fs : FS) (srcs tgts : List String)
    (split : Nat)
    (h : ¬ (split * tgts.length = srcs.length) ∨
         (∃ f ∈ srcs, fs f = none) ∨ split ≤ 1) :
    ∃ msg, post_process_split fs srcs tgts split = Except.error msg := by
  unfold post_process_split
  split_ifs with h1 h2 h3 h4
  all_goals try exact ⟨_, rfl⟩
  exfalso
  rcases h with hc | ⟨f, hf, hnone⟩ | hc
  · exact hc h1
  · have h2f := List.all_eq_true.mp h2 f hf
    unfold isfile at h2f
    rw [hnone] at h2f
    simp at h2f
  · omega

/-- Witness for C4: empty file lists with `split = 1` (the split guard). -/
theorem post_process_split_asserts_witness :
    ∃ msg, post_process_split (fun _ => none) [] [] 1 = Except.error msg :=
  post_process_split_asserts (fun _ => none) [] [] 1
    (Or.inr (Or.inr (by omega)))

theorem processTargets_preserves (srcs : List String) (split : Nat) :
    ∀ (tgts : List String) (fs : FS) (i : Nat) (t : String),
      (fs t).isSome = true →
      ((processTargets srcs split fs tgts i).1 t).isSome = true := by
  intro tgts
  induction tgts with
  | nil => intro fs i t ht; exact ht
  | cons tf rest ih =>
    intro fs i t ht
    rw [processTargets_cons]
    apply ih
    unfold np_savetxt
    by_cases he : t = tf
    · rw [if_pos he]; rfl
    · rw [if_neg he]; exact ht

theorem processTargets_writes (srcs : List String) (split : Nat) :
    ∀ (tgts : List String) (fs : FS) (i : Nat) (t : String), t ∈ tgts →
      ((processTargets srcs split fs tgts i).1 t).isSome = true := by
  intro tgts
  induction tgts with
  | nil => intro fs i t ht; simp at ht
  | cons tf rest ih =>
    intro fs i t ht
    rw [processTargets_cons]
    rcases List.mem_cons.mp ht with rfl | ht2
    · apply processTargets_preserves
      unfold np_savetxt
      rw [if_pos rfl]
      rfl
    · exact ih _ _ t ht2

theorem processTargets_not_written (srcs : List String) (split : Nat) :
    ∀ (tgts : List String) (fs : FS) (i : Nat) (t : String), t ∉ tgts →
      (processTargets srcs split fs tgts i).1 t = fs t := by
  intro tgts
  induction tgts with
  | nil => intro fs i t _; rfl
  | cons tf rest ih =>
    intro fs i t ht
    rw [processTargets_cons]
    have hne : t ≠ tf := fun he => ht (he ▸ List.mem_cons_self tf rest)
    have ht2 : t ∉ rest := fun hc => ht (List.mem_cons_of_mem tf hc)
    show (processTargets srcs split _ rest (i + split)).1 t = fs t
    rw [ih _ (i + split) t ht2]
    unfold np_savetxt
    rw [if_neg hne]

theorem processTargets_overwrites (srcs : List String) (split : Nat) :
    ∀ (tgts : List String) (fs : FS) (i : Nat) (t : String), t ∈ tgts →
      ∃ arr, (t, arr) ∈ (processTargets srcs split fs tgts i).2 ∧
        (processTargets srcs split fs tgts i).1 t = some arr := by
  intro tgts
  induction tgts with
  | nil => intro fs i t ht; simp at ht
  | cons tf rest ih =>
    intro fs i t ht
    rw [processTargets_cons]
    rcases List.mem_cons.mp ht with rfl | ht2
    · by_cases hin : t ∈ rest
      · obtain ⟨arr, hev, hfin⟩ := ih _ (i + split) t hin
        exact ⟨arr, List.mem_cons_of_mem _ hev, hfin⟩
      · refine ⟨stepMean fs srcs split i, List.mem_cons_self _ _, ?_⟩
        show (processTargets srcs split _ rest (i + split)).1 t = _
        rw [processTargets_not_written srcs split rest _ (i + split) t hin]
        unfold np_savetxt
        rw [if_pos rfl]
    · obtain ⟨arr, hev, hfin⟩ := ih _ (i + split) t ht2
      exact ⟨arr, List.mem_cons_of_mem _ hev, hfin⟩

/-- C9: the existing-target assertion (`assert not all(isfile(f) for f in
target_filenames)`) fails exactly when every target already exists; with at
least one target missing (and the other assertions satisfied) the call
proceeds to the write loop, and every target file — including the ones that
already existed — is overwritten: its final content is an array the loop
itself wrote (an entry of the write-event list for that target), so a loop
that skipped existing targets would not satisfy this. -/
theorem post_process_split_target_guard (fs : FS) (srcs tgts : List String)
    (split : Nat) :
    (tgts.all (fun f => isfile fs f) = true ↔
      ∀ t ∈ tgts, (fs t).isSome = true) ∧
    (split * tgts.length = srcs.length →
     (∀ f ∈ srcs, (fs f).isSome = true) →
     (∃ t ∈ tgts, fs t = none) →
     1 < split →
     ∃ res, post_process_split fs srcs tgts split = Except.ok res ∧
       ∀ t ∈ tgts, ∃ arr, (t, arr) ∈ res.2 ∧ res.1 t = some arr) := by
  constructor
  · rw [List.all_eq_true]
    unfold isfile
    exact Iff.rfl
  · intro h1 h2 h3 h4
    refine ⟨processTargets srcs split fs tgts 0, ?_, ?_⟩
    · unfold post_process_split
      rw [if_neg (by omega), if_neg (by
          rw [not_not, List.all_eq_true]
          intro f hf
          exact h2 f hf),
        if_neg (by
          rw [List.all_eq_true]
          intro hall
          obtain ⟨t, ht, hnone⟩ := h3
          have := hall t ht
          unfold isfile at this
          rw [hnone] at this
          simp at this),
        if_neg (by omega)]
    · exact fun t ht => processTargets_overwrites srcs split tgts fs 0 t ht

/-- Witness for C9 at `sources = [x, y, z, w]`, `targets = [e, m]` (`e`
exists, `m` missing), `split = 2`. -/
theorem post_process_split_target_guard_witness :
    ((["e", "m"] : List String).all (fun f => isfile fs9 f) = true ↔
      ∀ t ∈ (["e", "m"] : List String), (fs9 t).isSome = true) ∧
    (∃ res, post_process_split fs9 ["x", "y", "z", "w"] ["e", "m"] 2 =
        Except.ok res ∧
      ∀ t ∈ (["e", "m"] : List String), ∃ arr, (t, arr) ∈ res.2 ∧
        res.1 t = some arr) :=
  ⟨(post_process_split_target_guard fs9 ["x", "y", "z", "w"] ["e", "m"] 2).1,
   (post_process_split_target_guard fs9 ["x", "y", "z", "w"] ["e", "m"] 2).2
     (by decide) (by decide) ⟨"m", by decide, rfl⟩ (by decide)⟩

theorem updateStore_read_self (st : Store) (a : Nat) (v : List (List Bool × Nat)) :
    updateStore st a v a = v := by
  unfold updateStore
  rw [if_pos rfl]

theorem updateStore_read_other (st : Store) (a x : Nat)
    (v : List (List Bool × Nat)) (h : x ≠ a) : updateStore st a v x = st x := by
  unfold updateStore
  rw [if_neg h]

theorem updateArr_read_self (st : ArrStore) (b : Nat) (v : Nat → ℝ) :
    updateArr st b v b = v := by
  unfold updateArr
  rw [if_pos rfl]

theorem updateArr_read_other (st : ArrStore) (b x : Nat) (v : Nat → ℝ)
    (h : x ≠ b) : updateArr st b v x = st x := by
  unfold updateArr
  rw [if_neg h]

theorem fix_countsST_eq (n_qubits a0 a1 a2 : Nat) (st : Store) :
    fix_countsST n_qubits a0 a1 a2 st = (fix_counts (st a0) n_qubits).map
      (fun final => (a2, updateStore (sortStep (mirrorStep st a0 a1) a1 a2)
        a2 final)) := by
  have hread : sortStep (mirrorStep st a0 a1) a1 a2 a2 =
      sortCounts ((st a0).map (fun p => (p.1.reverse, p.2))) := by
    unfold sortStep
    rw [updateStore_read_self]
    unfold mirrorStep
    rw [updateStore_read_self]
  unfold fix_countsST
  rw [hread]
  show (match fix_counts (st a0) n_qubits with
    | none => none
    | some final =>
      some (a2, updateStore (sortStep (mirrorStep st a0 a1) a1 a2) a2 final)) = _
  rcases fix_counts (st a0) n_qubits with _ | final
  · rfl
  · rfl

/-- C7: both functions leave their argument objects unchanged — all writes
in the store-passing embeddings go to the freshly allocated addresses
`a1`, `a2`, `b2` — and each result is the pure function of the argument
contents alone, `fix_counts (st a0)` resp.
`compute_Hellinger_distance (ast b0) (ast b1)`, independent of everything
else in the store. -/
theorem frame_fix_counts_and_hellinger
    (n_qubits nqubits : Nat) (a0 a1 a2 b0 b1 b2 : Nat)
    (st : Store) (ast : ArrStore)
    (ha1 : a0 ≠ a1) (ha2 : a0 ≠ a2)
    (hb2 : b0 ≠ b2) (hb21 : b1 ≠ b2) :
    ((fix_countsST n_qubits a0 a1 a2 st).map (fun r => r.2 a0) =
      (fix_counts (st a0) n_qubits).map (fun _ => st a0)) ∧
    ((fix_countsST n_qubits a0 a1 a2 st).map (fun r => r.2 r.1) =
      fix_counts (st a0) n_qubits) ∧
    (compute_Hellinger_distanceST nqubits b0 b1 b2 ast).2 b0 = ast b0 ∧
    (compute_Hellinger_distanceST nqubits b0 b1 b2 ast).2 b1 = ast b1 ∧
    (compute_Hellinger_distanceST nqubits b0 b1 b2 ast).1 =
      compute_Hellinger_distance (ast b0) (ast b1) nqubits := by
  refine ⟨?_, ?_, ?_, ?_, ?_⟩
  · rw [fix_countsST_eq, Option.map_map]
    rcases fix_counts (st a0) n_qubits with _ | final
    · rfl
    · show some (updateStore (sortStep (mirrorStep st a0 a1) a1 a2) a2 final a0) =
        some (st a0)
      rw [updateStore_read_other _ _ _ _ ha2]
      unfold sortStep
      rw [updateStore_read_other _ _ _ _ ha2]
      unfold mirrorStep
      rw [updateStore_read_other _ _ _ _ ha1]
  · rw [fix_countsST_eq, Option.map_map]
    rcases fix_counts (st a0) n_qubits with _ | final
    · rfl
    · show some _ = some final
      congr 1
      exact updateStore_read_self _ _ _
  · show dhStep ast b0 b1 b2 b0 = ast b0
    unfold dhStep
    exact updateArr_read_other _ _ _ _ hb2
  · show dhStep ast b0 b1 b2 b1 = ast b1
    unfold dhStep
    exact updateArr_read_other _ _ _ _ hb21
  · show (1 / Real.sqrt 2) * Real.sqrt
        ((List.range (2 ^ nqubits)).foldl
          (fun acc i => acc + dhStep ast b0 b1 b2 b2 i) 0) =
      compute_Hellinger_distance (ast b0) (ast b1) nqubits
    have hd : dhStep ast b0 b1 b2 b2 =
        fun i => (Real.sqrt (ast b1 i) - Real.sqrt (ast b0 i)) ^ 2 := by
      unfold dhStep
      exact updateArr_read_self _ _ _
    rw [hd]
    rfl

/-- Witness for C7 at a concrete store and distinct addresses. -/
theorem frame_fix_counts_and_hellinger_witness :
    ((fix_countsST 1 0 1 2 (fun _ => [([true], 5)])).map (fun r => r.2 0) =
      (fix_counts ((fun _ => [([true], 5)] : Store) 0) 1).map
        (fun _ => (fun _ => [([true], 5)] : Store) 0)) ∧
    ((fix_countsST 1 0 1 2 (fun _ => [([true], 5)])).map (fun r => r.2 r.1) =
      fix_counts ((fun _ => [([true], 5)] : Store) 0) 1) ∧
    (compute_Hellinger_distanceST 1 0 1 2 (fun _ => fun _ => 0)).2 0 =
      (fun _ => fun _ => (0 : ℝ) : ArrStore) 0 ∧
    (compute_Hellinger_distanceST 1 0 1 2 (fun _ => fun _ => 0)).2 1 =
      (fun _ => fun _ => (0 : ℝ) : ArrStore) 1 ∧
    (compute_Hellinger_distanceST 1 0 1 2 (fun _ => fun _ => 0)).1 =
      compute_Hellinger_distance ((fun _ => fun _ => (0 : ℝ) : ArrStore) 0)
        ((fun _ => fun _ => (0 : ℝ) : ArrStore) 1) 1 :=
  frame_fix_counts_and_hellinger 1 1 0 1 2 0 1 2
    (fun _ => [([true], 5)]) (fun _ => fun _ => 0)
    (by decide) (by decide) (by decide) (by decide)

theorem section_calls {α β : Type} (simulation : α → β) (π : List α) :
    ((π.map (fun a => [PoolEvent.call a,
        PoolEvent.printResult (simulation a)])).flatten).filterMap callArg = π := by
  induction π with
  | nil => rfl
  | cons x t ih =>
    rw [List.map_cons, List.flatten_cons, List.filterMap_append, ih]
    rfl

theorem section_prints {α β : Type} (simulation : α → β) (π : List α) :
    ((π.map (fun a => [PoolEvent.call a,
        PoolEvent.printResult (simulation a)])).flatten).filterMap printedResult =
      π.map simulation := by
  induction π with
  | nil => rfl
  | cons x t ih =>
    rw [List.map_cons, List.flatten_cons, List.filterMap_append, ih]
    rfl

theorem section_no_pool {α β : Type} (simulation : α → β) (π : List α) :
    ((π.map (fun a => [PoolEvent.call a,
        PoolEvent.printResult (simulation a)])).flatten).countP
      (fun e => isMkPool e) = 0 := by
  induction π with
  | nil => rfl
  | cons x t ih =>
    rw [List.map_cons, List.flatten_cons, List.countP_append, ih]
    rfl

/-- C8: on any scheduler order `π` (a permutation of `args`), the helper
applies `simulation` exactly once per element of `args` (the multiset of
`call` events is exactly `args`), creates exactly one pool, prints exactly
the `(time, nqubit)` results it receives and aggregates nothing else, ends
by closing and then joining the pool, and returns `None`. -/
theorem parallel_simulation_trace {α β : Type} (args : List α)
    (simulation : α → β) (cpu_count : Nat) (π : List α)
    (hπ : π.Perm args) :
    ((perform_parallel_simulation_with_multiprocessing args simulation
        cpu_count π).1.filterMap callArg).Perm args ∧
    (perform_parallel_simulation_with_multiprocessing args simulation
        cpu_count π).1.countP (fun e => isMkPool e) = 1 ∧
    (perform_parallel_simulation_with_multiprocessing args simulation
        cpu_count π).1.filterMap printedResult = π.map simulation ∧
    (∃ pre, (perform_parallel_simulation_with_multiprocessing args simulation
        cpu_count π).1 = pre ++ [PoolEvent.close, PoolEvent.join]) ∧
    (perform_parallel_simulation_with_multiprocessing args simulation
        cpu_count π).2 = () := by
  unfold perform_parallel_simulation_with_multiprocessing
  refine ⟨?_, ?_, ?_, ?_, rfl⟩
  · show (((([PoolEvent.cpuCountPrint cpu_count,
        PoolEvent.mkPool (n_processes cpu_count)] : List (PoolEvent α β)) ++
        (π.map (fun a => [PoolEvent.call a,
          PoolEvent.printResult (simulation a)])).flatten ++
        [PoolEvent.close, PoolEvent.join])).filterMap callArg).Perm args
    rw [List.filterMap_append, List.filterMap_append, section_calls]
    show (List.filterMap callArg [PoolEvent.cpuCountPrint cpu_count,
        PoolEvent.mkPool (n_processes cpu_count)] ++ π ++
        List.filterMap callArg [PoolEvent.close, PoolEvent.join]).Perm args
    show (([] : List α) ++ π ++ ([] : List α)).Perm args
    rw [List.nil_append, List.append_nil]
    exact hπ
  · rw [List.countP_append, List.countP_append, section_no_pool]
    rfl
  · rw [List.filterMap_append, List.filterMap_append, section_prints]
    show ([] : List β) ++ π.map simulation ++ ([] : List β) = π.map simulation
    rw [List.nil_append, List.append_nil]
  · exact ⟨[PoolEvent.cpuCountPrint cpu_count,
      PoolEvent.mkPool (n_processes cpu_count)] ++
      (π.map (fun a => [PoolEvent.call a,
        PoolEvent.printResult (simulation a)])).flatten,
      by rw [List.append_assoc]⟩

/-- Witness for C8 at `args = π = [3]`, `simulation n = (n, n)`,
`cpu_count = 4`. -/
theorem parallel_simulation_trace_witness :
    ((perform_parallel_simulation_with_multiprocessing [3] (fun n => (n, n))
        4 [3]).1.filterMap callArg).Perm [3] ∧
    (perform_parallel_simulation_with_multiprocessing [3] (fun n => (n, n))
        4 [3]).1.countP (fun e => isMkPool e) = 1 ∧
    (perform_parallel_simulation_with_multiprocessing [3] (fun n => (n, n))
        4 [3]).1.filterMap printedResult = ([3].map (fun n => (n, n))) ∧
    (∃ pre, (perform_parallel_simulation_with_multiprocessing [3]
        (fun n => (n, (n : Nat))) 4 [3]).1 =
      pre ++ [PoolEvent.close, PoolEvent.join]) ∧
    (perform_parallel_simulation_with_multiprocessing [3] (fun n => (n, n))
        4 [3]).2 = () :=
  parallel_simulation_trace [3] (fun n => (n, (n : Nat))) 4 [3]
    (List.Perm.refl [3])
